import Mathlib

/-!
# Verification of the transaction ledger engine

Shallow embedding of the `transaction` repository (src/engine.rs, src/client.rs,
src/decimal.rs, src/transaction.rs).

Monetary values (`Decimal` in src/decimal.rs) are a scaled fixed-point integer
(value × 10000) stored in an `i64`; the spec declares 64-bit overflow an explicit
non-goal, so amounts are embedded as unbounded `Int` on the scaled representation.
Client ids (u16) and transaction ids (u32) are only generated, stored and compared
for equality, so they are embedded as `Nat`.

The Rust `HashMap`s (`Engine.clients`, `Engine.history`) are embedded as
association lists with insert-overwrites semantics (`insertA` removes any older
binding for the key).
-/

namespace Txn

/-- The scaled fixed-point monetary type from src/decimal.rs: the wrapped `i64`
holds the value multiplied by 10000. -/
abbrev Decimal := Int

/-- `Decimal::new(integral, fractional)` from src/decimal.rs. -/
def Decimal.new (integral fractional : Int) : Decimal :=
  integral * 10000 + fractional

/-! ## Association maps (embedding of `std::collections::HashMap`) -/

/-- `HashMap::get`: first binding of key `k`. -/
def lookupA {α : Type} (k : Nat) : List (Nat × α) → Option α
  | [] => none
  | (k', v) :: rest => if k' = k then some v else lookupA k rest

/-- Remove every binding of key `k`. -/
def eraseA {α : Type} (k : Nat) : List (Nat × α) → List (Nat × α)
  | [] => []
  | p :: rest => if p.1 = k then eraseA k rest else p :: eraseA k rest

/-- `HashMap::insert`: bind `k` to `v`, dropping any previous binding. -/
def insertA {α : Type} (k : Nat) (v : α) (m : List (Nat × α)) : List (Nat × α) :=
  (k, v) :: eraseA k m

/-! ## Decimal text rendering and parsing (src/decimal.rs)

Text is embedded as `List Char`.  Rust byte-slicing (`r[..4]`) and Unicode
whitespace trimming agree with the `List Char` model on ASCII input, which
covers every string the `Decimal` code produces and every digit string it
accepts. -/

/-- One decimal digit as its ASCII character. -/
def digitChar (n : Nat) : Char :=
  if n = 0 then '0' else if n = 1 then '1' else if n = 2 then '2'
  else if n = 3 then '3' else if n = 4 then '4' else if n = 5 then '5'
  else if n = 6 then '6' else if n = 7 then '7' else if n = 8 then '8' else '9'

/-- ASCII digit to its value (the per-character step of integer `from_str`). -/
def charDigit (c : Char) : Option Nat :=
  if c = '0' then some 0 else if c = '1' then some 1 else if c = '2' then some 2
  else if c = '3' then some 3 else if c = '4' then some 4 else if c = '5' then some 5
  else if c = '6' then some 6 else if c = '7' then some 7 else if c = '8' then some 8
  else if c = '9' then some 9 else none

/-- Decimal digit string of a natural number, fuel-structured so that it
evaluates by kernel reduction (the fuel `n + 1` always suffices since the
argument strictly shrinks by division by 10). -/
def natToCharsF : Nat → Nat → List Char
  | 0, _ => []
  | fuel + 1, n =>
    if n < 10 then [digitChar n]
    else natToCharsF fuel (n / 10) ++ [digitChar (n % 10)]

/-- Decimal digit string of a natural number (Rust's integer `Display`). -/
def natToChars (n : Nat) : List Char := natToCharsF (n + 1) n

/-- The trailing-zero trimming loop of `Display for Decimal` (lines 53-55),
fuel-structured like `natToCharsF`. -/
def trimZerosF : Nat → Nat → Nat
  | 0, r => r
  | fuel + 1, r => if r % 10 = 0 ∧ r ≠ 0 then trimZerosF fuel (r / 10) else r

/-- Result of the trailing-zero trimming loop on the fractional part. -/
def trimZeros (r : Nat) : Nat := trimZerosF (r + 1) r

/-- The `fill` string of `Display for Decimal` (lines 45-51), computed from
the untrimmed fractional part. -/
def fillChars (r : Nat) : List Char :=
  if r = 0 then []
  else if r < 10 then ['0', '0', '0']
  else if r < 100 then ['0', '0']
  else if r < 1000 then ['0']
  else []

/-- `Display for Decimal` (src/decimal.rs lines 37-59): sign, integral part,
dot, fill, trimmed fractional part.  (`-dec` on `i64::MIN` would overflow in
Rust; 64-bit overflow is a spec non-goal and the embedding is exact.) -/
def decimalToChars (d : Int) : List Char :=
  let s : List Char := if d < 0 then ['-'] else []
  let dec : Nat := d.natAbs
  let l := dec / 10000
  let r0 := dec % 10000
  s ++ natToChars l ++ ['.'] ++ fillChars r0 ++ natToChars (trimZeros r0)

/-- Digit-accumulator of integer `from_str`: consumes the digit characters,
failing on any non-digit. -/
def parseNatAux : List Char → Nat → Option Nat
  | [], acc => some acc
  | c :: rest, acc =>
    match charDigit c with
    | none => none
    | some dg => parseNatAux rest (acc * 10 + dg)

/-- Rust `i64::from_str` over `List Char` (overflow aside): an optional sign
followed by one or more ASCII digits. -/
def parseIntChars (s : List Char) : Option Int :=
  match s with
  | [] => none
  | c :: rest =>
    if c = '-' then
      if rest = [] then none
      else (parseNatAux rest 0).map (fun n => -(n : Int))
    else if c = '+' then
      if rest = [] then none
      else (parseNatAux rest 0).map (fun n => (n : Int))
    else (parseNatAux (c :: rest) 0).map (fun n => (n : Int))

/-- `str::trim` on `List Char`: strip whitespace from both ends. -/
def trimChars (s : List Char) : List Char :=
  ((s.dropWhile Char.isWhitespace).reverse.dropWhile Char.isWhitespace).reverse

/-- Rust `str::split` at the dot character, over `List Char`: `[]` maps to
`[[]]`, and each dot opens a new (possibly empty) chunk. -/
def splitDot : List Char → List (List Char)
  | [] => [[]]
  | c :: rest =>
    if c = '.' then [] :: splitDot rest
    else
      match splitDot rest with
      | [] => [[c]]
      | p :: ps => (c :: p) :: ps

/-- The fractional-part match of `FromStr for Decimal` (lines 79-85): an
empty group parses as 0, groups of 1-3 digits are scaled to 4 decimal
places, longer groups are truncated to their first 4 characters. -/
def fracParse (rpart : List Char) : Option Int :=
  if rpart = [] then some 0
  else if rpart.length = 1 then (parseIntChars rpart).map (fun r => r * 1000)
  else if rpart.length = 2 then (parseIntChars rpart).map (fun r => r * 100)
  else if rpart.length = 3 then (parseIntChars rpart).map (fun r => r * 10)
  else parseIntChars (rpart.take 4)

/-- `FromStr for Decimal` (src/decimal.rs lines 61-93): trim, strip one
leading minus, split at dots, parse the integral part, parse the at most one
fractional group, reject further groups. -/
def decimalFromChars (s : List Char) : Option Int :=
  let s := trimChars s
  let sign : Int := if s.head? = some '-' then -1 else 1
  let s := if s.head? = some '-' then s.tail else s
  match splitDot s with
  | [] => none
  | lpart :: rest =>
    match parseIntChars lpart with
    | none => none
    | some l =>
      let r? : Option Int :=
        match rest with
        | [] => some 0
        | rpart :: rest2 => if rest2 ≠ [] then none else fracParse rpart
      match r? with
      | none => none
      | some r => some (sign * (l * 10000 + r))

/-! ## Data model -/

/-- `Client` from src/client.rs. -/
structure Client where
  cid : Nat
  available : Decimal
  held : Decimal
  locked : Bool
  deriving Repr, DecidableEq

/-- `Client::new` from src/client.rs: zero balances, unlocked. -/
def Client.new (cid : Nat) : Client :=
  { cid := cid, available := 0, held := 0, locked := false }

/-- `HistoryEntry` from src/engine.rs: the amount is stored negative for
withdrawals. -/
structure HistoryEntry where
  cid : Nat
  amount : Decimal
  disputed : Bool
  deriving Repr, DecidableEq

/-- `Transaction` from src/transaction.rs. -/
inductive Transaction where
  | deposit (cid tx : Nat) (amount : Decimal)
  | withdrawal (cid tx : Nat) (amount : Decimal)
  | dispute (cid tx : Nat)
  | resolve (cid tx : Nat)
  | chargeback (cid tx : Nat)
  deriving Repr, DecidableEq

/-- The client id carried by a transaction record. -/
def Transaction.cidOf : Transaction → Nat
  | .deposit cid _ _ => cid
  | .withdrawal cid _ _ => cid
  | .dispute cid _ => cid
  | .resolve cid _ => cid
  | .chargeback cid _ => cid

/-- `Engine` from src/engine.rs: client accounts and transaction history. -/
structure Engine where
  clients : List (Nat × Client)
  history : List (Nat × HistoryEntry)
  deriving Repr, DecidableEq

/-- `Engine::new` (Default): empty maps. -/
def Engine.new : Engine := { clients := [], history := [] }

/-! ## Engine operations

Each `process_*` method of src/engine.rs returns `Result<()>` and mutates
`self`; the embedding returns the new state together with `true` for `Ok`
and `false` for `Err`.  A `false` result still carries the state because
`Engine::client` / `Engine::client_mut` insert a fresh client before some
rejection checks run. -/

/-- Value of `self.clients` at `cid` as seen through `entry().or_insert_with`:
the stored client, or a fresh one. -/
def getClient (st : Engine) (cid : Nat) : Client :=
  (lookupA cid st.clients).getD (Client.new cid)

/-- Store `c` under key `cid` (the write-back of `client_mut`). -/
def setClient (st : Engine) (cid : Nat) (c : Client) : Engine :=
  { st with clients := insertA cid c st.clients }

/-- `Engine::client` / `Engine::client_mut` map effect: insert a new client on
first access (src/engine.rs lines 115-122). -/
def ensureClient (st : Engine) (cid : Nat) : Engine :=
  match lookupA cid st.clients with
  | some _ => st
  | none => setClient st cid (Client.new cid)

/-- `Engine::process_deposit` (src/engine.rs lines 164-173).  `Engine::client`
only touches the clients map, so `self.history` at the `log` call is still
`st.history`; the final record states both map updates at once. -/
def processDeposit (st : Engine) (tx cid : Nat) (amount : Decimal) : Engine × Bool :=
  if (lookupA tx st.history).isSome then (st, false)
  else
    let st1 := ensureClient st cid
    let c := getClient st1 cid
    if c.locked then (st1, false)
    else
      ({ clients := insertA cid { c with available := c.available + amount } st1.clients,
         history := insertA tx { cid := cid, amount := amount, disputed := false }
           st.history }, true)

/-- `Engine::process_whitdrawal` (src/engine.rs lines 176-194); the history
entry is logged with amount `-amount`.  (The source tests
`client.available >= amount`.) -/
def processWhitdrawal (st : Engine) (tx cid : Nat) (amount : Decimal) : Engine × Bool :=
  if (lookupA tx st.history).isSome then (st, false)
  else
    let st1 := ensureClient st cid
    let c := getClient st1 cid
    if c.locked then (st1, false)
    else if amount ≤ c.available then
      ({ clients := insertA cid { c with available := c.available - amount } st1.clients,
         history := insertA tx { cid := cid, amount := -amount, disputed := false }
           st.history }, true)
    else (st1, false)

/-- `Engine::process_dispute` (src/engine.rs lines 197-232).  The entry update
(`disputed = true`) and the balance update touch the two disjoint maps, so
the final record states both at once. -/
def processDispute (st : Engine) (tx cid : Nat) : Engine × Bool :=
  let st1 := ensureClient st cid
  if (getClient st1 cid).locked then (st1, false)
  else
    match lookupA tx st.history with
    | none => (st1, false)
    | some e =>
      if e.cid ≠ cid then (st1, false)
      else if e.amount < 0 then (st1, false)
      else if e.disputed then (st1, false)
      else
        let c := getClient st1 cid
        ({ clients := insertA cid
             { c with available := c.available - e.amount, held := c.held + e.amount }
             st1.clients,
           history := insertA tx { e with disputed := true } st.history }, true)

/-- `Engine::process_resolve` (src/engine.rs lines 235-266). -/
def processResolve (st : Engine) (tx cid : Nat) : Engine × Bool :=
  let st1 := ensureClient st cid
  if (getClient st1 cid).locked then (st1, false)
  else
    match lookupA tx st.history with
    | none => (st1, false)
    | some e =>
      if e.cid ≠ cid then (st1, false)
      else if ¬e.disputed then (st1, false)
      else
        let c := getClient st1 cid
        ({ clients := insertA cid
             { c with available := c.available + e.amount, held := c.held - e.amount }
             st1.clients,
           history := insertA tx { e with disputed := false } st.history }, true)

/-- `Engine::process_chargeback` (src/engine.rs lines 269-304).  The source
asserts `client.held >= amount` before mutating; the assertion's guard
condition is stated separately and proved to hold on all reachable states
(claim C4), so the embedding performs the mutation unconditionally exactly as
the code does after the assert. -/
def processChargeback (st : Engine) (tx cid : Nat) : Engine × Bool :=
  let st1 := ensureClient st cid
  if (getClient st1 cid).locked then (st1, false)
  else
    match lookupA tx st.history with
    | none => (st1, false)
    | some e =>
      if e.cid ≠ cid then (st1, false)
      else if ¬e.disputed then (st1, false)
      else
        let c := getClient st1 cid
        ({ clients := insertA cid { c with held := c.held - e.amount, locked := true }
             st1.clients,
           history := insertA tx { e with disputed := false } st.history }, true)

/-- `Engine::process_transaction` (src/engine.rs lines 149-161). -/
def processTransaction (st : Engine) : Transaction → Engine × Bool
  | .deposit cid tx amount => processDeposit st tx cid amount
  | .withdrawal cid tx amount => processWhitdrawal st tx cid amount
  | .dispute cid tx => processDispute st tx cid
  | .resolve cid tx => processResolve st tx cid
  | .chargeback cid tx => processChargeback st tx cid

/-- The processing loop of `process` (src/engine.rs lines 25-36): every record
is applied in order, rejections are discarded with `.ok()`. -/
def runT (st : Engine) : List Transaction → Engine
  | [] => st
  | t :: ts => runT (processTransaction st t).1 ts

/-- States reachable from the fresh engine by some input sequence. -/
def Reachable (st : Engine) : Prop :=
  ∃ ts : List Transaction, runT Engine.new ts = st

/-- Keys of an association map. -/
def keysA {α : Type} (m : List (Nat × α)) : List Nat := m.map Prod.fst

/-- Contribution of one history binding to client `c`'s held balance. -/
def contribOf (c : Nat) (p : Nat × HistoryEntry) : Int :=
  if p.2.cid = c ∧ p.2.disputed = true then p.2.amount else 0

/-- Sum of the disputed amounts currently charged to client `c`. -/
def heldSum (c : Nat) (m : List (Nat × HistoryEntry)) : Int :=
  (m.map (contribOf c)).sum

/-- The engine invariant: history keys are unique, every stored client's held
balance is the sum of its currently-disputed entries' amounts, disputed
entries carry non-negative amounts, and every entry's client exists. -/
structure Inv (st : Engine) : Prop where
  nodupH : (keysA st.history).Nodup
  heldEq : ∀ c cl, lookupA c st.clients = some cl → cl.held = heldSum c st.history
  dispNN : ∀ p ∈ st.history, p.2.disputed = true → 0 ≤ p.2.amount
  cidIn : ∀ p ∈ st.history, (lookupA p.2.cid st.clients).isSome

/-! ## Association-map lemmas -/

theorem lookupA_eraseA_self {α : Type} (k : Nat) (m : List (Nat × α)) :
    lookupA k (eraseA k m) = none := by
  induction m with
  | nil => rfl
  | cons p rest ih =>
    by_cases h : p.1 = k
    · simpa [eraseA, h] using ih
    · simpa [eraseA, lookupA, h] using ih

theorem lookupA_eraseA_ne {α : Type} {k k' : Nat} (h : k' ≠ k) (m : List (Nat × α)) :
    lookupA k' (eraseA k m) = lookupA k' m := by
  induction m with
  | nil => rfl
  | cons p rest ih =>
    by_cases hp : p.1 = k
    · simp [eraseA, lookupA, hp, Ne.symm h, ih]
    · by_cases hp' : p.1 = k'
      · simp [eraseA, lookupA, hp, hp', h]
      · simp [eraseA, lookupA, hp, hp', ih]

theorem lookupA_insertA_self {α : Type} (k : Nat) (v : α) (m : List (Nat × α)) :
    lookupA k (insertA k v m) = some v := by
  simp [insertA, lookupA]

theorem lookupA_insertA_ne {α : Type} {k k' : Nat} (h : k' ≠ k) (v : α)
    (m : List (Nat × α)) : lookupA k' (insertA k v m) = lookupA k' m := by
  have : k ≠ k' := fun hh => h hh.symm
  simp [insertA, lookupA, this, lookupA_eraseA_ne h]

theorem lookupA_mem {α : Type} {k : Nat} {v : α} {m : List (Nat × α)}
    (h : lookupA k m = some v) : (k, v) ∈ m := by
  induction m with
  | nil => simp [lookupA] at h
  | cons p rest ih =>
    obtain ⟨a, b⟩ := p
    by_cases hp : a = k
    · simp only [lookupA, if_pos hp] at h
      injection h with hv
      subst hp
      subst hv
      exact List.mem_cons_self _ _
    · simp only [lookupA, if_neg hp] at h
      exact List.mem_cons_of_mem _ (ih h)

theorem eraseA_sublist {α : Type} (k : Nat) (m : List (Nat × α)) :
    (eraseA k m).Sublist m := by
  induction m with
  | nil => simp [eraseA]
  | cons p rest ih =>
    by_cases hp : p.1 = k
    · simp only [eraseA, hp, if_pos]
      exact ih.cons _
    · simp only [eraseA, hp, if_neg, not_false_iff]
      exact ih.cons₂ _

theorem mem_of_mem_eraseA {α : Type} {k : Nat} {p : Nat × α} {m : List (Nat × α)}
    (h : p ∈ eraseA k m) : p ∈ m :=
  (eraseA_sublist k m).mem h

theorem eraseA_of_lookupA_none {α : Type} {k : Nat} {m : List (Nat × α)}
    (h : lookupA k m = none) : eraseA k m = m := by
  induction m with
  | nil => rfl
  | cons p rest ih =>
    by_cases hp : p.1 = k
    · simp [lookupA, hp] at h
    · simp only [lookupA, hp, if_neg, not_false_iff] at h
      simp [eraseA, hp, ih h]

theorem lookupA_none_of_not_mem_keys {α : Type} {k : Nat} {m : List (Nat × α)}
    (h : k ∉ keysA m) : lookupA k m = none := by
  induction m with
  | nil => rfl
  | cons p rest ih =>
    simp only [keysA, List.map_cons, List.mem_cons, not_or] at h
    have hp : p.1 ≠ k := fun hh => h.1 hh.symm
    simp only [lookupA, hp, if_neg, not_false_iff]
    exact ih h.2

theorem not_mem_keys_eraseA {α : Type} (k : Nat) (m : List (Nat × α)) :
    k ∉ keysA (eraseA k m) := by
  induction m with
  | nil => simp [eraseA, keysA]
  | cons p rest ih =>
    by_cases hp : p.1 = k
    · simpa [eraseA, hp] using ih
    · simp only [eraseA, hp, if_neg, not_false_iff, keysA, List.map_cons, List.mem_cons,
        not_or]
      exact ⟨fun hh => hp hh.symm, ih⟩

theorem keysA_nodup_eraseA {α : Type} (k : Nat) {m : List (Nat × α)}
    (h : (keysA m).Nodup) : (keysA (eraseA k m)).Nodup :=
  ((eraseA_sublist k m).map Prod.fst).nodup h

theorem keysA_nodup_insertA {α : Type} (k : Nat) (v : α) {m : List (Nat × α)}
    (h : (keysA m).Nodup) : (keysA (insertA k v m)).Nodup := by
  simp only [insertA, keysA, List.map_cons, List.nodup_cons]
  exact ⟨not_mem_keys_eraseA k m, keysA_nodup_eraseA k h⟩

/-! ## Engine basics -/

theorem ensureClient_history (st : Engine) (cid : Nat) :
    (ensureClient st cid).history = st.history := by
  unfold ensureClient
  cases lookupA cid st.clients <;> rfl

theorem lookupA_ensureClient_self (st : Engine) (cid : Nat) :
    lookupA cid (ensureClient st cid).clients = some (getClient st cid) := by
  unfold ensureClient getClient
  cases h : lookupA cid st.clients with
  | none => simp [h, setClient, lookupA_insertA_self]
  | some c => simp [h]

theorem lookupA_ensureClient_ne {c cid : Nat} (h : c ≠ cid) (st : Engine) :
    lookupA c (ensureClient st cid).clients = lookupA c st.clients := by
  unfold ensureClient
  cases hl : lookupA cid st.clients with
  | none => simp [setClient, lookupA_insertA_ne h]
  | some _ => rfl

theorem getClient_ensureClient (st : Engine) (cid c : Nat) :
    getClient (ensureClient st cid) c = getClient st c := by
  by_cases h : c = cid
  · subst h
    simp [getClient, lookupA_ensureClient_self]
  · simp [getClient, lookupA_ensureClient_ne h]

theorem lookupA_ensureClient_inv {st : Engine} {cid c : Nat} {cl : Client}
    (h : lookupA c (ensureClient st cid).clients = some cl) :
    lookupA c st.clients = some cl ∨ (lookupA c st.clients = none ∧ cl = Client.new c) := by
  by_cases hc : c = cid
  · subst hc
    rw [lookupA_ensureClient_self] at h
    cases hl : lookupA c st.clients with
    | none =>
      right
      injection h with h
      refine ⟨rfl, ?_⟩
      rw [← h]
      simp [getClient, hl]
    | some cl' =>
      left
      injection h with h
      have hg : getClient st c = cl' := by simp [getClient, hl]
      exact congrArg some (hg.symm.trans h)
  · rw [lookupA_ensureClient_ne hc] at h
    exact Or.inl h

/-! ## Branch analysis of the five operations -/

theorem processDeposit_cases (st : Engine) (tx cid : Nat) (amount : Decimal) :
    ((lookupA tx st.history).isSome ∧ processDeposit st tx cid amount = (st, false)) ∨
    (lookupA tx st.history = none ∧ (getClient st cid).locked = true ∧
      processDeposit st tx cid amount = (ensureClient st cid, false)) ∨
    (lookupA tx st.history = none ∧ (getClient st cid).locked = false ∧
      processDeposit st tx cid amount =
        ({ clients := insertA cid
             { getClient st cid with available := (getClient st cid).available + amount }
             (ensureClient st cid).clients,
           history := insertA tx { cid := cid, amount := amount, disputed := false }
             st.history }, true)) := by
  unfold processDeposit
  cases hdup : lookupA tx st.history with
  | some e => simp [hdup]
  | none =>
    rcases hlk : (getClient st cid).locked with _ | _
    · right; right
      simp [hdup, getClient_ensureClient, hlk]
    · right; left
      simp [hdup, getClient_ensureClient, hlk]

theorem processWhitdrawal_cases (st : Engine) (tx cid : Nat) (amount : Decimal) :
    ((lookupA tx st.history).isSome ∧ processWhitdrawal st tx cid amount = (st, false)) ∨
    (lookupA tx st.history = none ∧ (getClient st cid).locked = true ∧
      processWhitdrawal st tx cid amount = (ensureClient st cid, false)) ∨
    (lookupA tx st.history = none ∧ (getClient st cid).locked = false ∧
      (getClient st cid).available < amount ∧
      processWhitdrawal st tx cid amount = (ensureClient st cid, false)) ∨
    (lookupA tx st.history = none ∧ (getClient st cid).locked = false ∧
      amount ≤ (getClient st cid).available ∧
      processWhitdrawal st tx cid amount =
        ({ clients := insertA cid
             { getClient st cid with available := (getClient st cid).available - amount }
             (ensureClient st cid).clients,
           history := insertA tx { cid := cid, amount := -amount, disputed := false }
             st.history }, true)) := by
  unfold processWhitdrawal
  cases hdup : lookupA tx st.history with
  | some e => simp [hdup]
  | none =>
    rcases hlk : (getClient st cid).locked with _ | _
    · by_cases hav : amount ≤ (getClient st cid).available
      · right; right; right
        simp [hdup, getClient_ensureClient, hlk, hav]
      · right; right; left
        simp [hdup, getClient_ensureClient, hlk, hav, lt_of_not_le hav]
    · right; left
      simp [hdup, getClient_ensureClient, hlk]

theorem processDispute_cases (st : Engine) (tx cid : Nat) :
    processDispute st tx cid = (ensureClient st cid, false) ∨
    (∃ e, lookupA tx st.history = some e ∧ (getClient st cid).locked = false ∧
      e.cid = cid ∧ 0 ≤ e.amount ∧ e.disputed = false ∧
      processDispute st tx cid =
        ({ clients := insertA cid
             { getClient st cid with
               available := (getClient st cid).available - e.amount,
               held := (getClient st cid).held + e.amount }
             (ensureClient st cid).clients,
           history := insertA tx { e with disputed := true } st.history }, true)) := by
  unfold processDispute
  rcases hlk : (getClient st cid).locked with _ | _
  · cases he : lookupA tx st.history with
    | none => simp [getClient_ensureClient, hlk, he]
    | some e =>
      by_cases hc : e.cid = cid
      · by_cases hneg : e.amount < 0
        · left; simp [getClient_ensureClient, hlk, he, hc, hneg]
        · rcases hdi : e.disputed with _ | _
          · right
            exact ⟨e, rfl, rfl, hc, le_of_not_lt hneg, hdi, by
              simp [getClient_ensureClient, hlk, he, hc, hneg, hdi]⟩
          · left; simp [getClient_ensureClient, hlk, he, hc, hneg, hdi]
      · left; simp [getClient_ensureClient, hlk, he, hc]
  · left; simp [getClient_ensureClient, hlk]

theorem processResolve_cases (st : Engine) (tx cid : Nat) :
    processResolve st tx cid = (ensureClient st cid, false) ∨
    (∃ e, lookupA tx st.history = some e ∧ (getClient st cid).locked = false ∧
      e.cid = cid ∧ e.disputed = true ∧
      processResolve st tx cid =
        ({ clients := insertA cid
             { getClient st cid with
               available := (getClient st cid).available + e.amount,
               held := (getClient st cid).held - e.amount }
             (ensureClient st cid).clients,
           history := insertA tx { e with disputed := false } st.history }, true)) := by
  unfold processResolve
  rcases hlk : (getClient st cid).locked with _ | _
  · cases he : lookupA tx st.history with
    | none => simp [getClient_ensureClient, hlk, he]
    | some e =>
      by_cases hc : e.cid = cid
      · rcases hdi : e.disputed with _ | _
        · left; simp [getClient_ensureClient, hlk, he, hc, hdi]
        · right
          exact ⟨e, rfl, rfl, hc, hdi, by
            simp [getClient_ensureClient, hlk, he, hc, hdi]⟩
      · left; simp [getClient_ensureClient, hlk, he, hc]
  · left; simp [getClient_ensureClient, hlk]

theorem processChargeback_cases (st : Engine) (tx cid : Nat) :
    processChargeback st tx cid = (ensureClient st cid, false) ∨
    (∃ e, lookupA tx st.history = some e ∧ (getClient st cid).locked = false ∧
      e.cid = cid ∧ e.disputed = true ∧
      processChargeback st tx cid =
        ({ clients := insertA cid
             { getClient st cid with
               held := (getClient st cid).held - e.amount, locked := true }
             (ensureClient st cid).clients,
           history := insertA tx { e with disputed := false } st.history }, true)) := by
  unfold processChargeback
  rcases hlk : (getClient st cid).locked with _ | _
  · cases he : lookupA tx st.history with
    | none => simp [getClient_ensureClient, hlk, he]
    | some e =>
      by_cases hc : e.cid = cid
      · rcases hdi : e.disputed with _ | _
        · left; simp [getClient_ensureClient, hlk, he, hc, hdi]
        · right
          exact ⟨e, rfl, rfl, hc, hdi, by
            simp [getClient_ensureClient, hlk, he, hc, hdi]⟩
      · left; simp [getClient_ensureClient, hlk, he, hc]
  · left; simp [getClient_ensureClient, hlk]

/-- A deposit on a fresh tx for an unlocked client is accepted. -/
theorem processDeposit_accepts {st : Engine} {tx cid : Nat} {amount : Decimal}
    (hfresh : lookupA tx st.history = none)
    (hlk : (getClient st cid).locked = false) :
    processDeposit st tx cid amount =
      ({ clients := insertA cid
           { getClient st cid with available := (getClient st cid).available + amount }
           (ensureClient st cid).clients,
         history := insertA tx { cid := cid, amount := amount, disputed := false }
           st.history }, true) := by
  unfold processDeposit
  simp [hfresh, getClient_ensureClient, hlk]

/-- A dispute is accepted when the client is unlocked and the entry exists,
matches the client, is non-negative and undisputed. -/
theorem processDispute_accepts {st : Engine} {tx cid : Nat} {e : HistoryEntry}
    (he : lookupA tx st.history = some e)
    (hlk : (getClient st cid).locked = false) (hc : e.cid = cid)
    (hnn : 0 ≤ e.amount) (hnd : e.disputed = false) :
    processDispute st tx cid =
      ({ clients := insertA cid
           { getClient st cid with
             available := (getClient st cid).available - e.amount,
             held := (getClient st cid).held + e.amount }
           (ensureClient st cid).clients,
         history := insertA tx { e with disputed := true } st.history }, true) := by
  unfold processDispute
  simp [getClient_ensureClient, hlk, he, hc, not_lt.mpr hnn, hnd]

/-- A client binding survives `ensureClient`. -/
theorem lookupA_ensureClient_of_some {st : Engine} {cid c : Nat} {cl : Client}
    (h : lookupA c st.clients = some cl) :
    lookupA c (ensureClient st cid).clients = some cl := by
  by_cases hc : c = cid
  · subst hc
    rw [lookupA_ensureClient_self]
    simp [getClient, h]
  · rw [lookupA_ensureClient_ne hc]
    exact h

/-- A present client stays present through `ensureClient`. -/
theorem lookupA_ensureClient_isSome {st : Engine} {cid c : Nat}
    (h : (lookupA c st.clients).isSome) :
    (lookupA c (ensureClient st cid).clients).isSome := by
  cases hv : lookupA c st.clients with
  | none => rw [hv] at h; simp at h
  | some cl => rw [lookupA_ensureClient_of_some hv]; rfl

/-- A present binding stays present through an insert (possibly replaced). -/
theorem lookupA_insertA_isSome {α : Type} {k c : Nat} {m : List (Nat × α)} (v : α)
    (h : (lookupA c m).isSome) : (lookupA c (insertA k v m)).isSome := by
  by_cases hc : c = k
  · subst hc; rw [lookupA_insertA_self]; rfl
  · rw [lookupA_insertA_ne hc]; exact h

/-- Every rejection leaves the state either untouched or extended by the
fresh client that `Engine::client` / `client_mut` inserted on the way to the
failed check. -/
theorem step_rejected_shape (st : Engine) (t : Transaction)
    (h : (processTransaction st t).2 = false) :
    (processTransaction st t).1 = st ∨
    (processTransaction st t).1 = ensureClient st t.cidOf := by
  cases t with
  | deposit cid tx amount =>
    rcases processDeposit_cases st tx cid amount with ⟨_, hr⟩ | ⟨_, _, hr⟩ | ⟨_, _, hr⟩ <;>
      simp only [processTransaction, Transaction.cidOf] at h ⊢ <;> rw [hr] at h ⊢
    · exact Or.inl rfl
    · exact Or.inr rfl
    · simp at h
  | withdrawal cid tx amount =>
    rcases processWhitdrawal_cases st tx cid amount with
      ⟨_, hr⟩ | ⟨_, _, hr⟩ | ⟨_, _, _, hr⟩ | ⟨_, _, _, hr⟩ <;>
      simp only [processTransaction, Transaction.cidOf] at h ⊢ <;> rw [hr] at h ⊢
    · exact Or.inl rfl
    · exact Or.inr rfl
    · exact Or.inr rfl
    · simp at h
  | dispute cid tx =>
    rcases processDispute_cases st tx cid with hr | ⟨e, _, _, _, _, _, hr⟩ <;>
      simp only [processTransaction, Transaction.cidOf] at h ⊢ <;> rw [hr] at h ⊢
    · exact Or.inr rfl
    · simp at h
  | resolve cid tx =>
    rcases processResolve_cases st tx cid with hr | ⟨e, _, _, _, _, hr⟩ <;>
      simp only [processTransaction, Transaction.cidOf] at h ⊢ <;> rw [hr] at h ⊢
    · exact Or.inr rfl
    · simp at h
  | chargeback cid tx =>
    rcases processChargeback_cases st tx cid with hr | ⟨e, _, _, _, _, hr⟩ <;>
      simp only [processTransaction, Transaction.cidOf] at h ⊢ <;> rw [hr] at h ⊢
    · exact Or.inr rfl
    · simp at h

/-- Reading back the client that an accepted operation just wrote. -/
theorem getClient_mk_insert_self (c : Client) (m : List (Nat × Client))
    (h : List (Nat × HistoryEntry)) (cid : Nat) :
    getClient { clients := insertA cid c m, history := h } cid = c := by
  simp [getClient, lookupA_insertA_self]

/-! ## Claim C6: an accepted dispute moves exactly the entry's amount -/

/-- C6: whenever a Dispute on a recorded entry is accepted, the client's
available decreases by exactly the entry's recorded amount and held increases
by exactly that amount, so available + held is unchanged.  (That the resulting
available may be negative and is still accepted is exhibited by the witness,
which drives available to -50.0000.) -/
theorem dispute_moves_exact_amount (st : Engine) (tx cid : Nat) (e : HistoryEntry)
    (he : lookupA tx st.history = some e)
    (hacc : (processDispute st tx cid).2 = true) :
    (getClient (processDispute st tx cid).1 cid).available
        = (getClient st cid).available - e.amount ∧
      (getClient (processDispute st tx cid).1 cid).held
        = (getClient st cid).held + e.amount ∧
      (getClient (processDispute st tx cid).1 cid).available
          + (getClient (processDispute st tx cid).1 cid).held
        = (getClient st cid).available + (getClient st cid).held := by
  rcases processDispute_cases st tx cid with hr | ⟨e', he', hlk, hc, hnn, hnd, hr⟩
  · rw [hr] at hacc; simp at hacc
  · have hv : e = e' := by rw [he] at he'; exact Option.some.inj he'
    rw [hv, hr]
    refine ⟨?_, ?_, ?_⟩ <;> rw [getClient_mk_insert_self]
    show ((getClient st cid).available - e'.amount) + ((getClient st cid).held + e'.amount)
        = (getClient st cid).available + (getClient st cid).held
    ring

/-- C6 witness: the `dispute_into_dept` scenario of src/engine.rs, where the
accepted dispute leaves available = -50.0000. -/
theorem dispute_moves_exact_amount_witness :
    lookupA 1 (runT Engine.new
        [Transaction.deposit 1 1 1000000, Transaction.withdrawal 1 2 500000,
         Transaction.deposit 1 3 2000000, Transaction.withdrawal 1 4 2000000]).history
      = some { cid := 1, amount := 1000000, disputed := false } ∧
    (processDispute (runT Engine.new
        [Transaction.deposit 1 1 1000000, Transaction.withdrawal 1 2 500000,
         Transaction.deposit 1 3 2000000, Transaction.withdrawal 1 4 2000000]) 1 1).2
      = true ∧
    ((getClient (processDispute (runT Engine.new
        [Transaction.deposit 1 1 1000000, Transaction.withdrawal 1 2 500000,
         Transaction.deposit 1 3 2000000, Transaction.withdrawal 1 4 2000000]) 1 1).1 1).available
        = (getClient (runT Engine.new
        [Transaction.deposit 1 1 1000000, Transaction.withdrawal 1 2 500000,
         Transaction.deposit 1 3 2000000, Transaction.withdrawal 1 4 2000000]) 1).available
          - (1000000 : Int) ∧
      (getClient (processDispute (runT Engine.new
        [Transaction.deposit 1 1 1000000, Transaction.withdrawal 1 2 500000,
         Transaction.deposit 1 3 2000000, Transaction.withdrawal 1 4 2000000]) 1 1).1 1).held
        = (getClient (runT Engine.new
        [Transaction.deposit 1 1 1000000, Transaction.withdrawal 1 2 500000,
         Transaction.deposit 1 3 2000000, Transaction.withdrawal 1 4 2000000]) 1).held
          + (1000000 : Int) ∧
      (getClient (processDispute (runT Engine.new
        [Transaction.deposit 1 1 1000000, Transaction.withdrawal 1 2 500000,
         Transaction.deposit 1 3 2000000, Transaction.withdrawal 1 4 2000000]) 1 1).1 1).available
          + (getClient (processDispute (runT Engine.new
        [Transaction.deposit 1 1 1000000, Transaction.withdrawal 1 2 500000,
         Transaction.deposit 1 3 2000000, Transaction.withdrawal 1 4 2000000]) 1 1).1 1).held
        = (getClient (runT Engine.new
        [Transaction.deposit 1 1 1000000, Transaction.withdrawal 1 2 500000,
         Transaction.deposit 1 3 2000000, Transaction.withdrawal 1 4 2000000]) 1).available
          + (getClient (runT Engine.new
        [Transaction.deposit 1 1 1000000, Transaction.withdrawal 1 2 500000,
         Transaction.deposit 1 3 2000000, Transaction.withdrawal 1 4 2000000]) 1).held) ∧
    (getClient (processDispute (runT Engine.new
        [Transaction.deposit 1 1 1000000, Transaction.withdrawal 1 2 500000,
         Transaction.deposit 1 3 2000000, Transaction.withdrawal 1 4 2000000]) 1 1).1 1).available
      < 0 :=
  ⟨by decide, by decide,
   dispute_moves_exact_amount _ 1 1 { cid := 1, amount := 1000000, disputed := false }
     (by decide) (by decide),
   by decide⟩

/-! ## Claim C8: withdrawal guard -/

/-- C8: a Withdrawal on a fresh tx for an unlocked client is rejected with the
client's balances unchanged when available < amount, and otherwise accepted
with available decreased by the amount, held unchanged, and the resulting
available never below zero. -/
theorem whitdrawal_insufficient_guard (st : Engine) (tx cid : Nat) (amount : Decimal)
    (hfresh : lookupA tx st.history = none)
    (hlk : (getClient st cid).locked = false) :
    ((getClient st cid).available < amount →
      (processWhitdrawal st tx cid amount).2 = false ∧
      getClient (processWhitdrawal st tx cid amount).1 cid = getClient st cid) ∧
    (amount ≤ (getClient st cid).available →
      (processWhitdrawal st tx cid amount).2 = true ∧
      (getClient (processWhitdrawal st tx cid amount).1 cid).available
        = (getClient st cid).available - amount ∧
      (getClient (processWhitdrawal st tx cid amount).1 cid).held
        = (getClient st cid).held ∧
      0 ≤ (getClient (processWhitdrawal st tx cid amount).1 cid).available) := by
  rcases processWhitdrawal_cases st tx cid amount with
    ⟨hs, _⟩ | ⟨_, hlk', _⟩ | ⟨_, _, hav, hr⟩ | ⟨_, _, hav, hr⟩
  · rw [hfresh] at hs; simp at hs
  · rw [hlk'] at hlk; simp at hlk
  · constructor
    · intro _
      rw [hr]
      exact ⟨rfl, getClient_ensureClient st cid cid⟩
    · intro hle
      exact absurd hle (not_le.mpr hav)
  · constructor
    · intro hlt
      exact absurd hav (not_le.mpr hlt)
    · intro _
      rw [hr]
      refine ⟨rfl, ?_, ?_, ?_⟩ <;> rw [getClient_mk_insert_self]
      show (0 : Int) ≤ (getClient st cid).available - amount
      exact sub_nonneg.mpr hav

/-- C8 witness: withdrawing 50.0000 from a fresh (empty) account is rejected. -/
theorem whitdrawal_insufficient_guard_witness :
    lookupA 1 Engine.new.history = none ∧
    (getClient Engine.new 1).locked = false ∧
    (((getClient Engine.new 1).available < 500000 →
      (processWhitdrawal Engine.new 1 1 500000).2 = false ∧
      getClient (processWhitdrawal Engine.new 1 1 500000).1 1 = getClient Engine.new 1) ∧
    ((500000 : Int) ≤ (getClient Engine.new 1).available →
      (processWhitdrawal Engine.new 1 1 500000).2 = true ∧
      (getClient (processWhitdrawal Engine.new 1 1 500000).1 1).available
        = (getClient Engine.new 1).available - 500000 ∧
      (getClient (processWhitdrawal Engine.new 1 1 500000).1 1).held
        = (getClient Engine.new 1).held ∧
      0 ≤ (getClient (processWhitdrawal Engine.new 1 1 500000).1 1).available)) :=
  ⟨rfl, rfl, whitdrawal_insufficient_guard Engine.new 1 1 500000 rfl rfl⟩

/-! ## Claim C1: what a rejection can and cannot change -/

/-- C1 counterexample: a Dispute referencing an unknown tx is rejected, yet the
engine state after it differs from the state before it — a fresh client
account for client 1 has been created by `Engine::client`. -/
theorem rejected_record_cex :
    (processTransaction Engine.new (Transaction.dispute 1 0)).2 = false ∧
    (processTransaction Engine.new (Transaction.dispute 1 0)).1 ≠ Engine.new := by
  decide

/-- C1 amended: a rejected record never modifies the history and never
modifies any existing client account; the only state change it can make is
creating the referenced client's fresh zero-balance unlocked account. -/
theorem rejected_record_no_mutation (st : Engine) (t : Transaction)
    (h : (processTransaction st t).2 = false) :
    (processTransaction st t).1.history = st.history ∧
    (∀ c cl, lookupA c st.clients = some cl →
      lookupA c (processTransaction st t).1.clients = some cl) ∧
    (∀ c cl, lookupA c (processTransaction st t).1.clients = some cl →
      lookupA c st.clients = some cl ∨
        (lookupA c st.clients = none ∧ cl = Client.new c)) := by
  rcases step_rejected_shape st t h with hr | hr <;> rw [hr]
  · exact ⟨rfl, fun c cl hc => hc, fun c cl hc => Or.inl hc⟩
  · exact ⟨ensureClient_history st t.cidOf,
      fun c cl hc => lookupA_ensureClient_of_some hc,
      fun c cl hc => lookupA_ensureClient_inv hc⟩

/-- C1 witness: the rejected unknown-tx dispute of the counterexample indeed
leaves the history and all existing accounts unchanged. -/
theorem rejected_record_no_mutation_witness :
    (processTransaction Engine.new (Transaction.resolve 2 7)).2 = false ∧
    ((processTransaction Engine.new (Transaction.resolve 2 7)).1.history
        = Engine.new.history ∧
      (∀ c cl, lookupA c Engine.new.clients = some cl →
        lookupA c (processTransaction Engine.new (Transaction.resolve 2 7)).1.clients
          = some cl) ∧
      (∀ c cl,
        lookupA c (processTransaction Engine.new (Transaction.resolve 2 7)).1.clients
          = some cl →
        lookupA c Engine.new.clients = some cl ∨
          (lookupA c Engine.new.clients = none ∧ cl = Client.new c))) :=
  ⟨by decide, rejected_record_no_mutation Engine.new (Transaction.resolve 2 7) (by decide)⟩

/-! ## Claim C2: re-dispute after resolve -/

/-- C2 counterexample: deposit tx 1, dispute it (accepted), resolve it
(accepted); the claim says any later Dispute on tx 1 must be rejected, but the
engine accepts disputing tx 1 again. -/
theorem redispute_rejected_cex :
    (processDispute (runT Engine.new [Transaction.deposit 1 1 1000000]) 1 1).2 = true ∧
    (processResolve (runT Engine.new
        [Transaction.deposit 1 1 1000000, Transaction.dispute 1 1]) 1 1).2 = true ∧
    (processDispute (runT Engine.new
        [Transaction.deposit 1 1 1000000, Transaction.dispute 1 1,
         Transaction.resolve 1 1]) 1 1).2 = true := by
  decide

/-- C2 amended: after an accepted Resolve on tx, the history entry's disputed
flag is false again, and a later Dispute on tx by the same client (the entry's
recorded amount being non-negative) is accepted — a resolved dispute can be
re-opened, it is not rejected. -/
theorem redispute_after_resolve (st : Engine) (tx cid : Nat) (e : HistoryEntry)
    (he : lookupA tx st.history = some e) (hnn : 0 ≤ e.amount)
    (hacc : (processResolve st tx cid).2 = true) :
    lookupA tx (processResolve st tx cid).1.history = some { e with disputed := false } ∧
    (processDispute (processResolve st tx cid).1 tx cid).2 = true := by
  rcases processResolve_cases st tx cid with hr | ⟨e', he', hlk, hc, hdi, hr⟩
  · rw [hr] at hacc; simp at hacc
  · have hv : e = e' := by rw [he] at he'; exact Option.some.inj he'
    rw [hv] at hnn ⊢
    rw [hr]
    refine ⟨by simpa using lookupA_insertA_self tx _ st.history, ?_⟩
    rw [processDispute_accepts (e := { e' with disputed := false })
      (lookupA_insertA_self tx _ st.history)
      (by rw [getClient_mk_insert_self]; exact hlk)
      (by simpa using hc) (by simpa using hnn) rfl]

/-- C2 witness: concrete deposit/dispute/resolve run after which the re-dispute
is accepted. -/
theorem redispute_after_resolve_witness :
    lookupA 1 (runT Engine.new
        [Transaction.deposit 1 1 1000000, Transaction.dispute 1 1]).history
      = some { cid := 1, amount := 1000000, disputed := true } ∧
    (0 : Int) ≤ 1000000 ∧
    (processResolve (runT Engine.new
        [Transaction.deposit 1 1 1000000, Transaction.dispute 1 1]) 1 1).2 = true ∧
    (lookupA 1 (processResolve (runT Engine.new
        [Transaction.deposit 1 1 1000000, Transaction.dispute 1 1]) 1 1).1.history
      = some { cid := 1, amount := 1000000, disputed := false } ∧
    (processDispute ((processResolve (runT Engine.new
        [Transaction.deposit 1 1 1000000, Transaction.dispute 1 1]) 1 1)).1 1 1).2
      = true) :=
  ⟨by decide, by decide, by decide,
   redispute_after_resolve _ 1 1 { cid := 1, amount := 1000000, disputed := true }
     (by decide) (by decide) (by decide)⟩

/-! ## Claim C3: accepted withdrawals are not disputable -/

/-- A negative-amount, undisputed history entry survives any single
transaction unchanged: deposits/withdrawals cannot reuse its tx, disputes
reject it for its sign, resolves/chargebacks reject it as undisputed. -/
theorem negEntry_step (st : Engine) (t : Transaction) {tx : Nat} {e : HistoryEntry}
    (he : lookupA tx st.history = some e) (hneg : e.amount < 0)
    (hnd : e.disputed = false) :
    lookupA tx (processTransaction st t).1.history = some e := by
  have hne : ∀ tx' : Nat, lookupA tx' st.history = none → tx ≠ tx' := by
    intro tx' hf hh
    rw [hh, hf] at he
    exact Option.noConfusion he
  cases t with
  | deposit cid' tx' a =>
    simp only [processTransaction]
    rcases processDeposit_cases st tx' cid' a with ⟨_, hr⟩ | ⟨_, _, hr⟩ | ⟨hf, _, hr⟩ <;>
        rw [hr]
    · exact he
    · rw [ensureClient_history]; exact he
    · show lookupA tx (insertA tx' _ st.history) = some e
      rw [lookupA_insertA_ne (hne tx' hf)]; exact he
  | withdrawal cid' tx' a =>
    simp only [processTransaction]
    rcases processWhitdrawal_cases st tx' cid' a with
        ⟨_, hr⟩ | ⟨_, _, hr⟩ | ⟨_, _, _, hr⟩ | ⟨hf, _, _, hr⟩ <;> rw [hr]
    · exact he
    · rw [ensureClient_history]; exact he
    · rw [ensureClient_history]; exact he
    · show lookupA tx (insertA tx' _ st.history) = some e
      rw [lookupA_insertA_ne (hne tx' hf)]; exact he
  | dispute cid' tx' =>
    simp only [processTransaction]
    rcases processDispute_cases st tx' cid' with hr | ⟨e', he', _, _, hnn, _, hr⟩ <;> rw [hr]
    · rw [ensureClient_history]; exact he
    · show lookupA tx (insertA tx' _ st.history) = some e
      have hh : tx ≠ tx' := by
        intro hh
        rw [hh, he'] at he
        have hv := Option.some.inj he
        rw [hv] at hnn
        exact absurd hnn (not_le.mpr hneg)
      rw [lookupA_insertA_ne hh]; exact he
  | resolve cid' tx' =>
    simp only [processTransaction]
    rcases processResolve_cases st tx' cid' with hr | ⟨e', he', _, _, hdi, hr⟩ <;> rw [hr]
    · rw [ensureClient_history]; exact he
    · show lookupA tx (insertA tx' _ st.history) = some e
      have hh : tx ≠ tx' := by
        intro hh
        rw [hh, he'] at he
        have hv := Option.some.inj he
        rw [hv] at hdi
        rw [hdi] at hnd
        exact Bool.noConfusion hnd
      rw [lookupA_insertA_ne hh]; exact he
  | chargeback cid' tx' =>
    simp only [processTransaction]
    rcases processChargeback_cases st tx' cid' with hr | ⟨e', he', _, _, hdi, hr⟩ <;> rw [hr]
    · rw [ensureClient_history]; exact he
    · show lookupA tx (insertA tx' _ st.history) = some e
      have hh : tx ≠ tx' := by
        intro hh
        rw [hh, he'] at he
        have hv := Option.some.inj he
        rw [hv] at hdi
        rw [hdi] at hnd
        exact Bool.noConfusion hnd
      rw [lookupA_insertA_ne hh]; exact he

/-- A negative-amount, undisputed entry survives any run unchanged. -/
theorem negEntry_runT (ts : List Transaction) : ∀ (st : Engine) {tx : Nat}
    {e : HistoryEntry}, lookupA tx st.history = some e → e.amount < 0 →
    e.disputed = false → lookupA tx (runT st ts).history = some e := by
  induction ts with
  | nil => intro st tx e he _ _; exact he
  | cons t ts ih =>
    intro st tx e he hneg hnd
    exact ih _ (negEntry_step st t he hneg hnd) hneg hnd

/-- C3 counterexample: a Withdrawal with amount 0 is accepted by the engine
(`available >= 0` holds trivially), its history entry is stored with amount
-0 = 0, which passes the deposit-only check, so a subsequent Dispute on the
withdrawal's tx is accepted — contradicting the claim for arbitrary amounts. -/
theorem withdrawal_not_disputable_cex :
    (processWhitdrawal Engine.new 1 1 0).2 = true ∧
    (processDispute (processWhitdrawal Engine.new 1 1 0).1 1 1).2 = true := by
  decide

/-- C3 amended: for every accepted Withdrawal with positive amount, every
subsequent Dispute referencing that withdrawal's tx — at any later point of
the run, by any client id, whatever the lock state — is rejected, leaves the
history unchanged and leaves every stored client account unchanged. -/
theorem withdrawal_not_disputable (st : Engine) (tx cid : Nat) (amount : Decimal)
    (hpos : 0 < amount)
    (hacc : (processWhitdrawal st tx cid amount).2 = true) :
    ∀ (ts : List Transaction) (cid' : Nat),
      (processDispute (runT (processWhitdrawal st tx cid amount).1 ts) tx cid').2
          = false ∧
      (processDispute (runT (processWhitdrawal st tx cid amount).1 ts) tx cid').1.history
          = (runT (processWhitdrawal st tx cid amount).1 ts).history ∧
      (∀ c cl,
        lookupA c (runT (processWhitdrawal st tx cid amount).1 ts).clients = some cl →
        lookupA c
            (processDispute (runT (processWhitdrawal st tx cid amount).1 ts) tx cid').1.clients
          = some cl) := by
  intro ts cid'
  rcases processWhitdrawal_cases st tx cid amount with
    ⟨_, hr⟩ | ⟨_, _, hr⟩ | ⟨_, _, _, hr⟩ | ⟨_, _, _, hr⟩
  · rw [hr] at hacc; simp at hacc
  · rw [hr] at hacc; simp at hacc
  · rw [hr] at hacc; simp at hacc
  · have he1 : lookupA tx (processWhitdrawal st tx cid amount).1.history
        = some { cid := cid, amount := -amount, disputed := false } := by
      rw [hr]
      exact lookupA_insertA_self tx _ st.history
    have he2 := negEntry_runT ts _ he1
      (by show -amount < 0; exact neg_lt_zero.mpr hpos) rfl
    rcases processDispute_cases (runT (processWhitdrawal st tx cid amount).1 ts) tx cid'
        with hd | ⟨e', he', _, _, hnn, _, hd⟩
    · rw [hd]
      exact ⟨rfl, ensureClient_history _ cid',
        fun c cl hc => lookupA_ensureClient_of_some hc⟩
    · rw [he2] at he'
      have hv := Option.some.inj he'
      rw [← hv] at hnn
      have hnn' : (0 : Int) ≤ -amount := hnn
      exact absurd hpos (not_lt.mpr (neg_nonneg.mp hnn'))

/-- C3 witness: a concrete accepted withdrawal of 50.0000 whose tx can never
be disputed. -/
theorem withdrawal_not_disputable_witness :
    (0 : Int) < 500000 ∧
    (processWhitdrawal (runT Engine.new [Transaction.deposit 1 2 1000000]) 1 1 500000).2
      = true ∧
    ((processDispute (runT (processWhitdrawal
          (runT Engine.new [Transaction.deposit 1 2 1000000]) 1 1 500000).1 []) 1 7).2
        = false ∧
      (processDispute (runT (processWhitdrawal
          (runT Engine.new [Transaction.deposit 1 2 1000000]) 1 1 500000).1 []) 1 7).1.history
        = (runT (processWhitdrawal
          (runT Engine.new [Transaction.deposit 1 2 1000000]) 1 1 500000).1 []).history ∧
      (∀ c cl,
        lookupA c (runT (processWhitdrawal
          (runT Engine.new [Transaction.deposit 1 2 1000000]) 1 1 500000).1 []).clients
          = some cl →
        lookupA c (processDispute (runT (processWhitdrawal
          (runT Engine.new [Transaction.deposit 1 2 1000000]) 1 1 500000).1 []) 1 7).1.clients
          = some cl)) :=
  ⟨by decide, by decide,
   withdrawal_not_disputable (runT Engine.new [Transaction.deposit 1 2 1000000]) 1 1 500000
     (by decide) (by decide) [] 7⟩

/-! ## Claim C10: history records only successful deposits/withdrawals -/

/-- C10: rejections never touch the history; a tx id appears in the history
after a step only if it was already there or the step was an accepted Deposit
or Withdrawal carrying exactly that tx; and the tx id of a rejected
withdrawal stays unreserved — a later deposit under the same tx id (for an
unlocked client) succeeds. -/
theorem history_only_on_success (st : Engine) (tx cid : Nat) (amount : Decimal) :
    (∀ t, (processTransaction st t).2 = false →
      (processTransaction st t).1.history = st.history) ∧
    (∀ t tx', lookupA tx' st.history = none →
      (lookupA tx' (processTransaction st t).1.history).isSome →
      (processTransaction st t).2 = true ∧
      ∃ c a, t = Transaction.deposit c tx' a ∨ t = Transaction.withdrawal c tx' a) ∧
    (lookupA tx st.history = none → (processWhitdrawal st tx cid amount).2 = false →
      lookupA tx (processWhitdrawal st tx cid amount).1.history = none ∧
      ∀ cid' a',
        (getClient (processWhitdrawal st tx cid amount).1 cid').locked = false →
        (processDeposit (processWhitdrawal st tx cid amount).1 tx cid' a').2 = true) := by
  refine ⟨?_, ?_, ?_⟩
  · intro t h
    rcases step_rejected_shape st t h with hr | hr <;> rw [hr]
    exact ensureClient_history st t.cidOf
  · intro t tx' hf hs
    cases hb : (processTransaction st t).2 with
    | false =>
      rcases step_rejected_shape st t hb with hr | hr <;> rw [hr] at hs
      · rw [hf] at hs; exact Bool.noConfusion hs
      · rw [ensureClient_history, hf] at hs; exact Bool.noConfusion hs
    | true =>
      refine ⟨rfl, ?_⟩
      cases t with
      | deposit c ty a =>
        simp only [processTransaction] at hs
        rcases processDeposit_cases st ty c a with ⟨_, hr⟩ | ⟨_, _, hr⟩ | ⟨_, _, hr⟩ <;>
          rw [hr] at hs
        · rw [hf] at hs; exact Bool.noConfusion hs
        · rw [ensureClient_history, hf] at hs; exact Bool.noConfusion hs
        · by_cases hty : tx' = ty
          · exact ⟨c, a, Or.inl (by rw [hty])⟩
          · have hs' : (lookupA tx'
                (insertA ty { cid := c, amount := a, disputed := false }
                  st.history)).isSome := hs
            rw [lookupA_insertA_ne hty, hf] at hs'
            exact Bool.noConfusion hs'
      | withdrawal c ty a =>
        simp only [processTransaction] at hs
        rcases processWhitdrawal_cases st ty c a with
          ⟨_, hr⟩ | ⟨_, _, hr⟩ | ⟨_, _, _, hr⟩ | ⟨_, _, _, hr⟩ <;> rw [hr] at hs
        · rw [hf] at hs; exact Bool.noConfusion hs
        · rw [ensureClient_history, hf] at hs; exact Bool.noConfusion hs
        · rw [ensureClient_history, hf] at hs; exact Bool.noConfusion hs
        · by_cases hty : tx' = ty
          · exact ⟨c, a, Or.inr (by rw [hty])⟩
          · have hs' : (lookupA tx'
                (insertA ty { cid := c, amount := -a, disputed := false }
                  st.history)).isSome := hs
            rw [lookupA_insertA_ne hty, hf] at hs'
            exact Bool.noConfusion hs'
      | dispute c ty =>
        simp only [processTransaction] at hs
        rcases processDispute_cases st ty c with hr | ⟨e', he', _, _, _, _, hr⟩ <;>
          rw [hr] at hs
        · rw [ensureClient_history, hf] at hs; exact Bool.noConfusion hs
        · by_cases hty : tx' = ty
          · rw [← hty, hf] at he'; exact Option.noConfusion he'
          · have hs' : (lookupA tx'
                (insertA ty { e' with disputed := true } st.history)).isSome := hs
            rw [lookupA_insertA_ne hty, hf] at hs'
            exact Bool.noConfusion hs'
      | resolve c ty =>
        simp only [processTransaction] at hs
        rcases processResolve_cases st ty c with hr | ⟨e', he', _, _, _, hr⟩ <;>
          rw [hr] at hs
        · rw [ensureClient_history, hf] at hs; exact Bool.noConfusion hs
        · by_cases hty : tx' = ty
          · rw [← hty, hf] at he'; exact Option.noConfusion he'
          · have hs' : (lookupA tx'
                (insertA ty { e' with disputed := false } st.history)).isSome := hs
            rw [lookupA_insertA_ne hty, hf] at hs'
            exact Bool.noConfusion hs'
      | chargeback c ty =>
        simp only [processTransaction] at hs
        rcases processChargeback_cases st ty c with hr | ⟨e', he', _, _, _, hr⟩ <;>
          rw [hr] at hs
        · rw [ensureClient_history, hf] at hs; exact Bool.noConfusion hs
        · by_cases hty : tx' = ty
          · rw [← hty, hf] at he'; exact Option.noConfusion he'
          · have hs' : (lookupA tx'
                (insertA ty { e' with disputed := false } st.history)).isSome := hs
            rw [lookupA_insertA_ne hty, hf] at hs'
            exact Bool.noConfusion hs'
  · intro hf hrej
    have hh : lookupA tx (processWhitdrawal st tx cid amount).1.history = none := by
      rcases processWhitdrawal_cases st tx cid amount with
        ⟨hs, hr⟩ | ⟨_, _, hr⟩ | ⟨_, _, _, hr⟩ | ⟨_, _, _, hr⟩ <;> rw [hr]
      · exact hf
      · rw [ensureClient_history]; exact hf
      · rw [ensureClient_history]; exact hf
      · rw [hr] at hrej; exact Bool.noConfusion hrej
    refine ⟨hh, ?_⟩
    intro cid' a' hulk
    rw [processDeposit_accepts hh hulk]

/-- C10 witness: withdrawing 50.0000 from an empty account is rejected; tx 1
stays unreserved and a deposit of 7.0000 under tx 1 then succeeds. -/
theorem history_only_on_success_witness :
    lookupA 1 Engine.new.history = none ∧
    (processWhitdrawal Engine.new 1 1 500000).2 = false ∧
    (getClient (processWhitdrawal Engine.new 1 1 500000).1 2).locked = false ∧
    lookupA 1 (processWhitdrawal Engine.new 1 1 500000).1.history = none ∧
    (processDeposit (processWhitdrawal Engine.new 1 1 500000).1 1 2 70000).2 = true := by
  have h := (history_only_on_success Engine.new 1 1 500000).2.2 (by decide) (by decide)
  exact ⟨by decide, by decide, by decide, h.1, h.2 2 70000 (by decide)⟩

/-! ## Claim C5: a locked account is terminal -/

/-- An accepted transaction implies its client was unlocked beforehand. -/
theorem step_accepted_unlocked (st : Engine) (t : Transaction)
    (h : (processTransaction st t).2 = true) :
    (getClient st t.cidOf).locked = false := by
  cases t with
  | deposit c ty a =>
    simp only [processTransaction, Transaction.cidOf] at h ⊢
    rcases processDeposit_cases st ty c a with ⟨_, hr⟩ | ⟨_, _, hr⟩ | ⟨_, hlk, hr⟩ <;>
      rw [hr] at h
    · exact Bool.noConfusion h
    · exact Bool.noConfusion h
    · exact hlk
  | withdrawal c ty a =>
    simp only [processTransaction, Transaction.cidOf] at h ⊢
    rcases processWhitdrawal_cases st ty c a with
      ⟨_, hr⟩ | ⟨_, _, hr⟩ | ⟨_, _, _, hr⟩ | ⟨_, hlk, _, hr⟩ <;> rw [hr] at h
    · exact Bool.noConfusion h
    · exact Bool.noConfusion h
    · exact Bool.noConfusion h
    · exact hlk
  | dispute c ty =>
    simp only [processTransaction, Transaction.cidOf] at h ⊢
    rcases processDispute_cases st ty c with hr | ⟨e', _, hlk, _, _, _, hr⟩ <;> rw [hr] at h
    · exact Bool.noConfusion h
    · exact hlk
  | resolve c ty =>
    simp only [processTransaction, Transaction.cidOf] at h ⊢
    rcases processResolve_cases st ty c with hr | ⟨e', _, hlk, _, _, hr⟩ <;> rw [hr] at h
    · exact Bool.noConfusion h
    · exact hlk
  | chargeback c ty =>
    simp only [processTransaction, Transaction.cidOf] at h ⊢
    rcases processChargeback_cases st ty c with hr | ⟨e', _, hlk, _, _, hr⟩ <;> rw [hr] at h
    · exact Bool.noConfusion h
    · exact hlk

/-- An accepted transaction only rewrites the client it names. -/
theorem step_accepted_clients (st : Engine) (t : Transaction)
    (h : (processTransaction st t).2 = true) :
    ∃ c', (processTransaction st t).1.clients
        = insertA t.cidOf c' (ensureClient st t.cidOf).clients := by
  cases t with
  | deposit c ty a =>
    simp only [processTransaction, Transaction.cidOf] at h ⊢
    rcases processDeposit_cases st ty c a with ⟨_, hr⟩ | ⟨_, _, hr⟩ | ⟨_, _, hr⟩ <;>
      rw [hr] at h ⊢
    · exact Bool.noConfusion h
    · exact Bool.noConfusion h
    · exact ⟨_, rfl⟩
  | withdrawal c ty a =>
    simp only [processTransaction, Transaction.cidOf] at h ⊢
    rcases processWhitdrawal_cases st ty c a with
      ⟨_, hr⟩ | ⟨_, _, hr⟩ | ⟨_, _, _, hr⟩ | ⟨_, _, _, hr⟩ <;> rw [hr] at h ⊢
    · exact Bool.noConfusion h
    · exact Bool.noConfusion h
    · exact Bool.noConfusion h
    · exact ⟨_, rfl⟩
  | dispute c ty =>
    simp only [processTransaction, Transaction.cidOf] at h ⊢
    rcases processDispute_cases st ty c with hr | ⟨e', _, _, _, _, _, hr⟩ <;> rw [hr] at h ⊢
    · exact Bool.noConfusion h
    · exact ⟨_, rfl⟩
  | resolve c ty =>
    simp only [processTransaction, Transaction.cidOf] at h ⊢
    rcases processResolve_cases st ty c with hr | ⟨e', _, _, _, _, hr⟩ <;> rw [hr] at h ⊢
    · exact Bool.noConfusion h
    · exact ⟨_, rfl⟩
  | chargeback c ty =>
    simp only [processTransaction, Transaction.cidOf] at h ⊢
    rcases processChargeback_cases st ty c with hr | ⟨e', _, _, _, _, hr⟩ <;> rw [hr] at h ⊢
    · exact Bool.noConfusion h
    · exact ⟨_, rfl⟩

/-- A locked client's stored record survives any single transaction. -/
theorem locked_client_step (st : Engine) (t : Transaction) {c : Nat} {cl : Client}
    (h : lookupA c st.clients = some cl) (hl : cl.locked = true) :
    lookupA c (processTransaction st t).1.clients = some cl := by
  cases hb : (processTransaction st t).2 with
  | false =>
    rcases step_rejected_shape st t hb with hr | hr <;> rw [hr]
    · exact h
    · exact lookupA_ensureClient_of_some h
  | true =>
    obtain ⟨c', hcl⟩ := step_accepted_clients st t hb
    have hulk := step_accepted_unlocked st t hb
    have hne : c ≠ t.cidOf := by
      intro hcc
      rw [← hcc] at hulk
      simp only [getClient] at hulk
      rw [h] at hulk
      simp only [Option.getD_some] at hulk
      rw [hl] at hulk
      exact Bool.noConfusion hulk
    rw [hcl, lookupA_insertA_ne hne, lookupA_ensureClient_ne hne]
    exact h

/-- A locked client's stored record survives any run. -/
theorem locked_client_runT (ts : List Transaction) : ∀ (st : Engine) {c : Nat}
    {cl : Client}, lookupA c st.clients = some cl → cl.locked = true →
    lookupA c (runT st ts).clients = some cl := by
  induction ts with
  | nil => intro st c cl h _; exact h
  | cons t ts ih =>
    intro st c cl h hl
    exact ih _ (locked_client_step st t h hl) hl

/-- C5: once a client's account is locked, every subsequent transaction
naming that client is rejected, and the client's stored record — available,
held and the locked flag — never changes again for the rest of the run. -/
theorem locked_account_terminal (st : Engine) (c : Nat) (cl : Client)
    (h : lookupA c st.clients = some cl) (hl : cl.locked = true) :
    (∀ t, Transaction.cidOf t = c → (processTransaction st t).2 = false) ∧
    (∀ ts, lookupA c (runT st ts).clients = some cl) := by
  constructor
  · intro t hc
    cases hb : (processTransaction st t).2 with
    | false => rfl
    | true =>
      have hulk := step_accepted_unlocked st t hb
      rw [hc] at hulk
      simp only [getClient] at hulk
      rw [h] at hulk
      simp only [Option.getD_some] at hulk
      rw [hl] at hulk
      exact Bool.noConfusion hulk
  · intro ts
    exact locked_client_runT ts st h hl

/-- C5 witness: after deposit/dispute/chargeback the account of client 1 is
locked with zero balances; a further deposit is rejected and a longer run
leaves the record untouched. -/
theorem locked_account_terminal_witness :
    lookupA 1 (runT Engine.new
        [Transaction.deposit 1 1 1000000, Transaction.dispute 1 1,
         Transaction.chargeback 1 1]).clients
      = some { cid := 1, available := 0, held := 0, locked := true } ∧
    ({ cid := 1, available := 0, held := 0, locked := true } : Client).locked = true ∧
    (processTransaction (runT Engine.new
        [Transaction.deposit 1 1 1000000, Transaction.dispute 1 1,
         Transaction.chargeback 1 1]) (Transaction.deposit 1 2 500000)).2 = false ∧
    lookupA 1 (runT (runT Engine.new
        [Transaction.deposit 1 1 1000000, Transaction.dispute 1 1,
         Transaction.chargeback 1 1])
        [Transaction.deposit 1 2 500000, Transaction.resolve 1 1,
         Transaction.withdrawal 1 3 10000]).clients
      = some { cid := 1, available := 0, held := 0, locked := true } := by
  have H := locked_account_terminal (runT Engine.new
      [Transaction.deposit 1 1 1000000, Transaction.dispute 1 1,
       Transaction.chargeback 1 1]) 1
      { cid := 1, available := 0, held := 0, locked := true } (by decide) (by decide)
  exact ⟨by decide, by decide, H.1 (Transaction.deposit 1 2 500000) rfl,
    H.2 [Transaction.deposit 1 2 500000, Transaction.resolve 1 1,
      Transaction.withdrawal 1 3 10000]⟩

/-! ## Reachable-state invariant: held balances match disputed entries -/

theorem heldSum_cons (c : Nat) (p : Nat × HistoryEntry) (m : List (Nat × HistoryEntry)) :
    heldSum c (p :: m) = contribOf c p + heldSum c m := by
  simp [heldSum]

theorem heldSum_insertA (c k : Nat) (v : HistoryEntry) (m : List (Nat × HistoryEntry)) :
    heldSum c (insertA k v m) = contribOf c (k, v) + heldSum c (eraseA k m) := by
  simp [insertA, heldSum]

theorem heldSum_eraseA (c k : Nat) {m : List (Nat × HistoryEntry)} {e : HistoryEntry}
    (hnd : (keysA m).Nodup) (hl : lookupA k m = some e) :
    heldSum c m = contribOf c (k, e) + heldSum c (eraseA k m) := by
  induction m with
  | nil => simp [lookupA] at hl
  | cons p rest ih =>
    obtain ⟨a, b⟩ := p
    rw [keysA, List.map_cons, List.nodup_cons] at hnd
    by_cases hp : a = k
    · rw [lookupA, if_pos hp] at hl
      have hb : b = e := Option.some.inj hl
      subst hb
      subst hp
      have hrest : lookupA a rest = none :=
        lookupA_none_of_not_mem_keys (by simpa [keysA] using hnd.1)
      rw [show eraseA a ((a, b) :: rest) = eraseA a rest from by simp [eraseA],
        eraseA_of_lookupA_none hrest, heldSum_cons]
    · rw [lookupA, if_neg hp] at hl
      rw [show eraseA k ((a, b) :: rest) = (a, b) :: eraseA k rest from by
        simp [eraseA, hp], heldSum_cons, heldSum_cons, ih (by simpa [keysA] using hnd.2) hl]
      ring

theorem heldSum_zero_of_no_cid (c : Nat) {m : List (Nat × HistoryEntry)}
    (h : ∀ p ∈ m, p.2.cid ≠ c) : heldSum c m = 0 := by
  induction m with
  | nil => rfl
  | cons p rest ih =>
    rw [heldSum_cons]
    have h1 : contribOf c p = 0 := by
      unfold contribOf
      rw [if_neg]
      intro hcond
      exact h p (List.mem_cons_self p rest) hcond.1
    rw [h1, ih (fun q hq => h q (List.mem_cons_of_mem _ hq))]
    ring

theorem heldSum_nonneg (c : Nat) {m : List (Nat × HistoryEntry)}
    (h : ∀ p ∈ m, p.2.disputed = true → 0 ≤ p.2.amount) : 0 ≤ heldSum c m := by
  induction m with
  | nil => exact le_refl 0
  | cons p rest ih =>
    rw [heldSum_cons]
    have h1 : 0 ≤ contribOf c p := by
      unfold contribOf
      by_cases hcond : p.2.cid = c ∧ p.2.disputed = true
      · rw [if_pos hcond]
        exact h p (List.mem_cons_self p rest) hcond.2
      · rw [if_neg hcond]
    exact add_nonneg h1 (ih (fun q hq => h q (List.mem_cons_of_mem _ hq)))

theorem mem_insertA {α : Type} {k : Nat} {v : α} {p : Nat × α} {m : List (Nat × α)}
    (h : p ∈ insertA k v m) : p = (k, v) ∨ p ∈ m := by
  rw [insertA] at h
  rcases List.mem_cons.mp h with h | h
  · exact Or.inl h
  · exact Or.inr (mem_of_mem_eraseA h)

theorem contribOf_le_heldSum (c k : Nat) {m : List (Nat × HistoryEntry)}
    {e : HistoryEntry} (hnd : (keysA m).Nodup) (hl : lookupA k m = some e)
    (hx : ∀ p ∈ m, p.2.disputed = true → 0 ≤ p.2.amount)
    (hc : e.cid = c) (hd : e.disputed = true) : e.amount ≤ heldSum c m := by
  rw [heldSum_eraseA c k hnd hl]
  have h1 : contribOf c (k, e) = e.amount := by
    unfold contribOf
    rw [if_pos ⟨hc, hd⟩]
  rw [h1]
  exact le_add_of_nonneg_right
    (heldSum_nonneg c (fun p hp => hx p (mem_of_mem_eraseA hp)))

/-- Uniform statement of the invariant's held equation through `getClient`. -/
theorem getClient_held_of_inv {st : Engine} (hInv : Inv st) (c : Nat) :
    (getClient st c).held = heldSum c st.history := by
  cases hl : lookupA c st.clients with
  | none =>
    have hnone : ∀ p ∈ st.history, p.2.cid ≠ c := by
      intro p hp hpc
      have hin := hInv.cidIn p hp
      rw [hpc, hl] at hin
      exact Bool.noConfusion hin
    simp [getClient, hl, Client.new, heldSum_zero_of_no_cid c hnone]
  | some cl =>
    have := hInv.heldEq c cl hl
    simp [getClient, hl, this]

theorem inv_ensureClient {st : Engine} (hInv : Inv st) (cid : Nat) :
    Inv (ensureClient st cid) := by
  constructor
  · rw [ensureClient_history]
    exact hInv.nodupH
  · intro c cl hl
    rw [ensureClient_history]
    rcases lookupA_ensureClient_inv hl with h | ⟨hnone, hcl⟩
    · exact hInv.heldEq c cl h
    · rw [hcl]
      show (0 : Int) = heldSum c st.history
      symm
      apply heldSum_zero_of_no_cid
      intro p hp hpc
      have hin := hInv.cidIn p hp
      rw [hpc, hnone] at hin
      exact Bool.noConfusion hin
  · intro p hp
    rw [ensureClient_history] at hp
    exact hInv.dispNN p hp
  · intro p hp
    rw [ensureClient_history] at hp
    exact lookupA_ensureClient_isSome (hInv.cidIn p hp)

/-- Invariant preservation for the common accepted shape: the named client is
rewritten and one history binding is written under `tx`. -/
theorem inv_update {st : Engine} (hInv : Inv st) (cid tx : Nat)
    (ne : HistoryEntry) (newc : Client)
    (hcid : ne.cid = cid)
    (hnn : ne.disputed = true → 0 ≤ ne.amount)
    (hold : ∀ e0, lookupA tx st.history = some e0 → e0.cid = cid)
    (hheld : newc.held = heldSum cid (insertA tx ne st.history)) :
    Inv { clients := insertA cid newc (ensureClient st cid).clients,
          history := insertA tx ne st.history } := by
  have heraseSum : ∀ c : Nat, c ≠ cid →
      heldSum c (eraseA tx st.history) = heldSum c st.history := by
    intro c hc
    cases he0 : lookupA tx st.history with
    | none => rw [eraseA_of_lookupA_none he0]
    | some e0 =>
      rw [heldSum_eraseA c tx hInv.nodupH he0]
      have : contribOf c (tx, e0) = 0 := by
        unfold contribOf
        rw [if_neg]
        intro hcond
        exact hc (by rw [← hcond.1, hold e0 he0])
      rw [this]
      ring
  constructor
  · exact keysA_nodup_insertA tx ne hInv.nodupH
  · intro c cl hl
    by_cases hc : c = cid
    · subst hc
      rw [lookupA_insertA_self] at hl
      rw [← Option.some.inj hl]
      exact hheld
    · rw [lookupA_insertA_ne hc] at hl
      rw [heldSum_insertA]
      have hcontrib : contribOf c (tx, ne) = 0 := by
        unfold contribOf
        rw [if_neg]
        intro hcond
        exact hc (by rw [← hcond.1, hcid])
      rcases lookupA_ensureClient_inv hl with h | ⟨hnone, hcl⟩
      · rw [hcontrib, heraseSum c hc, hInv.heldEq c cl h]
        ring
      · rw [hcl]
        show (0 : Int) = contribOf c (tx, ne) + heldSum c (eraseA tx st.history)
        have hnoc : ∀ p ∈ eraseA tx st.history, p.2.cid ≠ c := by
          intro p hp hpc
          have hin := hInv.cidIn p (mem_of_mem_eraseA hp)
          rw [hpc, hnone] at hin
          exact Bool.noConfusion hin
        rw [hcontrib, heldSum_zero_of_no_cid c hnoc]
        ring
  · intro p hp hd
    rcases mem_insertA hp with h | h
    · rw [h] at hd ⊢
      exact hnn hd
    · exact hInv.dispNN p h hd
  · intro p hp
    rcases mem_insertA hp with h | h
    · rw [h]
      show (lookupA ne.cid (insertA cid newc (ensureClient st cid).clients)).isSome
      rw [hcid, lookupA_insertA_self]
      rfl
    · exact lookupA_insertA_isSome newc
        (lookupA_ensureClient_isSome (hInv.cidIn p h))

/-- The invariant is preserved by every transaction. -/
theorem inv_step (st : Engine) (t : Transaction) (hInv : Inv st) :
    Inv (processTransaction st t).1 := by
  cases hb : (processTransaction st t).2 with
  | false =>
    rcases step_rejected_shape st t hb with hr | hr <;> rw [hr]
    · exact hInv
    · exact inv_ensureClient hInv t.cidOf
  | true =>
    cases t with
    | deposit c ty a =>
      simp only [processTransaction] at hb ⊢
      rcases processDeposit_cases st ty c a with ⟨_, hr⟩ | ⟨_, _, hr⟩ | ⟨hf, _, hr⟩ <;>
        rw [hr] at hb ⊢
      · exact Bool.noConfusion hb
      · exact Bool.noConfusion hb
      · apply inv_update hInv c ty _ _ rfl
        · intro hd
          exact Bool.noConfusion hd
        · intro e0 he0
          rw [hf] at he0
          exact Option.noConfusion he0
        · show (getClient st c).held = _
          rw [heldSum_insertA, eraseA_of_lookupA_none hf,
            getClient_held_of_inv hInv c]
          have : contribOf c (ty, { cid := c, amount := a, disputed := false }) = 0 := by
            unfold contribOf
            rw [if_neg]
            intro hcond
            exact Bool.noConfusion hcond.2
          rw [this]
          ring
    | withdrawal c ty a =>
      simp only [processTransaction] at hb ⊢
      rcases processWhitdrawal_cases st ty c a with
        ⟨_, hr⟩ | ⟨_, _, hr⟩ | ⟨_, _, _, hr⟩ | ⟨hf, _, _, hr⟩ <;> rw [hr] at hb ⊢
      · exact Bool.noConfusion hb
      · exact Bool.noConfusion hb
      · exact Bool.noConfusion hb
      · apply inv_update hInv c ty _ _ rfl
        · intro hd
          exact Bool.noConfusion hd
        · intro e0 he0
          rw [hf] at he0
          exact Option.noConfusion he0
        · show (getClient st c).held = _
          rw [heldSum_insertA, eraseA_of_lookupA_none hf,
            getClient_held_of_inv hInv c]
          have : contribOf c (ty, { cid := c, amount := -a, disputed := false }) = 0 := by
            unfold contribOf
            rw [if_neg]
            intro hcond
            exact Bool.noConfusion hcond.2
          rw [this]
          ring
    | dispute c ty =>
      simp only [processTransaction] at hb ⊢
      rcases processDispute_cases st ty c with hr | ⟨e, he, _, hc, hnn, hnd, hr⟩ <;>
        rw [hr] at hb ⊢
      · exact Bool.noConfusion hb
      · apply inv_update hInv c ty _ _ (by simpa using hc)
        · intro _
          simpa using hnn
        · intro e0 he0
          rw [he] at he0
          rw [← Option.some.inj he0]
          exact hc
        · show (getClient st c).held + e.amount = _
          rw [heldSum_insertA, getClient_held_of_inv hInv c,
            heldSum_eraseA c ty hInv.nodupH he]
          have h1 : contribOf c (ty, { e with disputed := true }) = e.amount := by
            unfold contribOf
            rw [if_pos]
            exact ⟨hc, rfl⟩
          have h2 : contribOf c (ty, e) = 0 := by
            unfold contribOf
            rw [if_neg]
            intro hcond
            rw [hnd] at hcond
            exact Bool.noConfusion hcond.2
          rw [h1, h2]
          ring
    | resolve c ty =>
      simp only [processTransaction] at hb ⊢
      rcases processResolve_cases st ty c with hr | ⟨e, he, _, hc, hdi, hr⟩ <;>
        rw [hr] at hb ⊢
      · exact Bool.noConfusion hb
      · apply inv_update hInv c ty _ _ (by simpa using hc)
        · intro hd
          exact Bool.noConfusion hd
        · intro e0 he0
          rw [he] at he0
          rw [← Option.some.inj he0]
          exact hc
        · show (getClient st c).held - e.amount = _
          rw [heldSum_insertA, getClient_held_of_inv hInv c,
            heldSum_eraseA c ty hInv.nodupH he]
          have h1 : contribOf c (ty, { e with disputed := false }) = 0 := by
            unfold contribOf
            rw [if_neg]
            intro hcond
            exact Bool.noConfusion hcond.2
          have h2 : contribOf c (ty, e) = e.amount := by
            unfold contribOf
            rw [if_pos]
            exact ⟨hc, hdi⟩
          rw [h1, h2]
          ring
    | chargeback c ty =>
      simp only [processTransaction] at hb ⊢
      rcases processChargeback_cases st ty c with hr | ⟨e, he, _, hc, hdi, hr⟩ <;>
        rw [hr] at hb ⊢
      · exact Bool.noConfusion hb
      · apply inv_update hInv c ty _ _ (by simpa using hc)
        · intro hd
          exact Bool.noConfusion hd
        · intro e0 he0
          rw [he] at he0
          rw [← Option.some.inj he0]
          exact hc
        · show (getClient st c).held - e.amount = _
          rw [heldSum_insertA, getClient_held_of_inv hInv c,
            heldSum_eraseA c ty hInv.nodupH he]
          have h1 : contribOf c (ty, { e with disputed := false }) = 0 := by
            unfold contribOf
            rw [if_neg]
            intro hcond
            exact Bool.noConfusion hcond.2
          have h2 : contribOf c (ty, e) = e.amount := by
            unfold contribOf
            rw [if_pos]
            exact ⟨hc, hdi⟩
          rw [h1, h2]
          ring

/-- The fresh engine satisfies the invariant. -/
theorem inv_new : Inv Engine.new := by
  constructor
  · simp [Engine.new, keysA]
  · intro c cl hl
    simp [Engine.new, lookupA] at hl
  · intro p hp
    simp [Engine.new] at hp
  · intro p hp
    simp [Engine.new] at hp

/-- The invariant holds along every run. -/
theorem inv_runT (ts : List Transaction) : ∀ st : Engine, Inv st → Inv (runT st ts) := by
  induction ts with
  | nil => intro st h; exact h
  | cons t ts ih =>
    intro st h
    exact ih _ (inv_step st t h)

/-- Every reachable state satisfies the invariant. -/
theorem inv_reachable {st : Engine} (h : Reachable st) : Inv st := by
  rcases h with ⟨ts, rfl⟩
  exact inv_runT ts Engine.new inv_new

/-! ## Decimal text lemmas -/

theorem natToCharsF_stable (n : Nat) : ∀ f : Nat, n < f →
    natToCharsF f n = natToCharsF (n + 1) n := by
  induction n using Nat.strong_induction_on with
  | _ n ih =>
    intro f hf
    match f, hf with
    | f' + 1, _ =>
      by_cases h10 : n < 10
      · simp [natToCharsF, h10]
      · have hdiv : n / 10 < n := Nat.div_lt_self (by omega) (by omega)
        simp only [natToCharsF, h10, if_neg, if_false]
        rw [ih (n / 10) hdiv f' (by omega), ih (n / 10) hdiv n (by omega)]

/-- The recursion equation of the integer renderer. -/
theorem natToChars_eq (n : Nat) : natToChars n =
    if n < 10 then [digitChar n]
    else natToChars (n / 10) ++ [digitChar (n % 10)] := by
  show natToCharsF (n + 1) n = _
  by_cases h10 : n < 10
  · simp [natToCharsF, h10]
  · have hdiv : n / 10 < n := Nat.div_lt_self (by omega) (by omega)
    simp only [natToCharsF, h10, if_neg, if_false]
    rw [natToCharsF_stable (n / 10) n (by omega)]
    rfl

theorem trimZerosF_stable (r : Nat) : ∀ f : Nat, r < f →
    trimZerosF f r = trimZerosF (r + 1) r := by
  induction r using Nat.strong_induction_on with
  | _ r ih =>
    intro f hf
    match f, hf with
    | f' + 1, _ =>
      by_cases hc : r % 10 = 0 ∧ r ≠ 0
      · have hdiv : r / 10 < r := Nat.div_lt_self (by omega) (by omega)
        simp only [trimZerosF, hc, if_pos, and_true]
        rw [ih (r / 10) hdiv f' (by omega), ih (r / 10) hdiv r (by omega)]
      · simp [trimZerosF, hc]

/-- The recursion equation of the trailing-zero trimming loop. -/
theorem trimZeros_eq (r : Nat) : trimZeros r =
    if r % 10 = 0 ∧ r ≠ 0 then trimZeros (r / 10) else r := by
  show trimZerosF (r + 1) r = _
  by_cases hc : r % 10 = 0 ∧ r ≠ 0
  · have hdiv : r / 10 < r := Nat.div_lt_self (by omega) (by omega)
    simp only [trimZerosF, hc, if_pos, and_true]
    rw [trimZerosF_stable (r / 10) r (by omega)]
    rfl
  · simp [trimZerosF, hc]

theorem digitChar_props : ∀ k, k < 10 →
    digitChar k ≠ '.' ∧ digitChar k ≠ '-' ∧ digitChar k ≠ '+' ∧
      Char.isWhitespace (digitChar k) = false := by
  decide

theorem charDigit_digitChar : ∀ k, k < 10 → charDigit (digitChar k) = some k := by
  decide

theorem natToChars_ne_nil (n : Nat) : natToChars n ≠ [] := by
  rw [natToChars_eq]
  by_cases h10 : n < 10
  · simp [h10]
  · simp [h10]

theorem natToChars_digits (n : Nat) :
    ∀ c ∈ natToChars n, ∃ k, k < 10 ∧ c = digitChar k := by
  induction n using Nat.strong_induction_on with
  | _ n ih =>
    intro c hc
    rw [natToChars_eq] at hc
    by_cases h10 : n < 10
    · rw [if_pos h10] at hc
      rcases List.mem_singleton.mp hc with rfl
      exact ⟨n, h10, rfl⟩
    · rw [if_neg h10] at hc
      rcases List.mem_append.mp hc with h | h
      · exact ih (n / 10) (Nat.div_lt_self (by omega) (by omega)) c h
      · rcases List.mem_singleton.mp h with rfl
        exact ⟨n % 10, Nat.mod_lt n (by omega), rfl⟩

theorem fillChars_mem {r : Nat} {c : Char} (h : c ∈ fillChars r) : c = '0' := by
  unfold fillChars at h
  split_ifs at h <;> simp at h <;> try exact h

theorem parseNatAux_append (xs ys : List Char) (acc : Nat) :
    parseNatAux (xs ++ ys) acc
      = (parseNatAux xs acc).bind (fun m => parseNatAux ys m) := by
  induction xs generalizing acc with
  | nil => simp [parseNatAux]
  | cons c rest ih =>
    rw [List.cons_append]
    show (match charDigit c with
      | none => none
      | some dg => parseNatAux (rest ++ ys) (acc * 10 + dg)) = _
    cases hd : charDigit c with
    | none => simp [parseNatAux, hd]
    | some dg => simp [parseNatAux, hd, ih]

theorem parseNatAux_natToChars (n : Nat) : ∀ acc : Nat,
    parseNatAux (natToChars n) acc
      = some (acc * 10 ^ (natToChars n).length + n) := by
  induction n using Nat.strong_induction_on with
  | _ n ih =>
    intro acc
    by_cases h10 : n < 10
    · rw [natToChars_eq, if_pos h10]
      show (match charDigit (digitChar n) with
        | none => none
        | some dg => parseNatAux [] (acc * 10 + dg)) = _
      rw [charDigit_digitChar n h10]
      show some (acc * 10 + n) = _
      simp
    · have hdiv : n / 10 < n := Nat.div_lt_self (by omega) (by omega)
      rw [natToChars_eq, if_neg h10, parseNatAux_append, ih (n / 10) hdiv acc]
      show parseNatAux [digitChar (n % 10)] _ = _
      show (match charDigit (digitChar (n % 10)) with
        | none => none
        | some dg => parseNatAux []
            ((acc * 10 ^ (natToChars (n / 10)).length + n / 10) * 10 + dg)) = _
      rw [charDigit_digitChar (n % 10) (Nat.mod_lt n (by omega))]
      show some ((acc * 10 ^ (natToChars (n / 10)).length + n / 10) * 10 + n % 10) = _
      rw [List.length_append, List.length_singleton, pow_succ, ← mul_assoc]
      congr 1
      generalize acc * 10 ^ (natToChars (n / 10)).length = X
      omega

theorem parseNat_natToChars (n : Nat) : parseNatAux (natToChars n) 0 = some n := by
  rw [parseNatAux_natToChars n 0]
  simp

theorem parseIntChars_natToChars (n : Nat) :
    parseIntChars (natToChars n) = some (n : Int) := by
  cases hh : natToChars n with
  | nil => exact absurd hh (natToChars_ne_nil n)
  | cons c rest =>
    obtain ⟨k, hk, rfl⟩ :=
      natToChars_digits n c (hh ▸ List.mem_cons_self c rest)
    have hp := digitChar_props k hk
    have hpn : parseNatAux (digitChar k :: rest) 0 = some n := by
      rw [← hh]
      exact parseNat_natToChars n
    show (if digitChar k = '-' then
        if rest = [] then none
        else (parseNatAux rest 0).map (fun m => -(m : Int))
      else if digitChar k = '+' then
        if rest = [] then none
        else (parseNatAux rest 0).map (fun m => (m : Int))
      else (parseNatAux (digitChar k :: rest) 0).map (fun m => (m : Int)))
      = some (n : Int)
    rw [if_neg hp.2.1, if_neg hp.2.2.1, hpn]
    rfl

theorem parseNatAux_fill (r : Nat) (s : List Char) :
    parseNatAux (fillChars r ++ s) 0 = parseNatAux s 0 := by
  have h0 : charDigit '0' = some 0 := by decide
  unfold fillChars
  split_ifs <;> simp [parseNatAux, h0]

theorem parseIntChars_fill_digits (r n : Nat) :
    parseIntChars (fillChars r ++ natToChars n) = some (n : Int) := by
  cases hf : fillChars r with
  | nil => rw [List.nil_append]; exact parseIntChars_natToChars n
  | cons c rest =>
    have hc : c = '0' := fillChars_mem (hf ▸ List.mem_cons_self c rest)
    subst hc
    rw [List.cons_append]
    have hpn : parseNatAux ('0' :: (rest ++ natToChars n)) 0 = some n := by
      rw [show ('0' :: (rest ++ natToChars n)) = fillChars r ++ natToChars n from by
        rw [hf, List.cons_append]]
      rw [parseNatAux_fill r (natToChars n)]
      exact parseNat_natToChars n
    show (if '0' = '-' then
        if (rest ++ natToChars n) = [] then none
        else (parseNatAux (rest ++ natToChars n) 0).map (fun m => -(m : Int))
      else if '0' = '+' then
        if (rest ++ natToChars n) = [] then none
        else (parseNatAux (rest ++ natToChars n) 0).map (fun m => (m : Int))
      else (parseNatAux ('0' :: (rest ++ natToChars n)) 0).map (fun m => (m : Int)))
      = some (n : Int)
    rw [if_neg (by decide), if_neg (by decide), hpn]
    rfl

theorem natToChars_length (n : Nat) : (natToChars n).length =
    if n < 10 then 1 else (natToChars (n / 10)).length + 1 := by
  conv_lhs => rw [natToChars_eq]
  by_cases h10 : n < 10 <;> simp [h10]

theorem natToChars_length_lt (n : Nat) (h : n < 10000) :
    (natToChars n).length =
      if n < 10 then 1 else if n < 100 then 2 else if n < 1000 then 3 else 4 := by
  by_cases h1 : n < 10
  · rw [natToChars_length, if_pos h1, if_pos h1]
  · by_cases h2 : n < 100
    · rw [natToChars_length, if_neg h1, natToChars_length,
        if_pos (by omega : n / 10 < 10)]
      simp [h1, h2]
    · by_cases h3 : n < 1000
      · rw [natToChars_length, if_neg h1, natToChars_length,
          if_neg (by omega : ¬n / 10 < 10), natToChars_length,
          if_pos (by omega : n / 10 / 10 < 10)]
        simp [h1, h2, h3]
      · rw [natToChars_length, if_neg h1, natToChars_length,
          if_neg (by omega : ¬n / 10 < 10), natToChars_length,
          if_neg (by omega : ¬n / 10 / 10 < 10), natToChars_length,
          if_pos (by omega : n / 10 / 10 / 10 < 10)]
        simp [h1, h2, h3]

theorem fillChars_length (r : Nat) : (fillChars r).length =
    if r = 0 then 0 else if r < 10 then 3 else if r < 100 then 2
    else if r < 1000 then 1 else 0 := by
  unfold fillChars
  split_ifs <;> simp

theorem natToChars_mul10 {t : Nat} (ht : t ≠ 0) :
    (natToChars (t * 10)).length = (natToChars t).length + 1 := by
  rw [natToChars_length, if_neg (by omega : ¬t * 10 < 10),
    show t * 10 / 10 = t from by omega]

theorem natToChars_pow_length (t : Nat) (z : Nat) (ht : t ≠ 0) :
    (natToChars (t * 10 ^ z)).length = (natToChars t).length + z := by
  induction z with
  | zero => simp
  | succ z ih =>
    rw [show t * 10 ^ (z + 1) = (t * 10 ^ z) * 10 from by ring,
      natToChars_mul10 (by positivity), ih]
    omega

theorem trimZeros_spec (r : Nat) : ∃ z : Nat,
    r = trimZeros r * 10 ^ z ∧ (r ≠ 0 → trimZeros r ≠ 0) ∧
      (trimZeros r ≠ 0 → trimZeros r % 10 ≠ 0) := by
  induction r using Nat.strong_induction_on with
  | _ r ih =>
    rw [trimZeros_eq]
    by_cases hc : r % 10 = 0 ∧ r ≠ 0
    · rw [if_pos hc]
      obtain ⟨z, hz, hnz, hmod⟩ := ih (r / 10) (Nat.div_lt_self (by omega) (by omega))
      refine ⟨z + 1, ?_, fun _ => hnz (by omega), hmod⟩
      conv_lhs => rw [show r = (r / 10) * 10 from by omega, hz]
      ring
    · rw [if_neg hc]
      push_neg at hc
      exact ⟨0, by simp, fun h => h, fun ht hm => ht (hc hm)⟩

theorem frac_roundtrip (r0 : Nat) (h : r0 < 10000) :
    fracParse (fillChars r0 ++ natToChars (trimZeros r0)) = some (r0 : Int) := by
  by_cases h0 : r0 = 0
  · subst h0
    decide
  · obtain ⟨z, hz, hnz0, _⟩ := trimZeros_spec r0
    have htne : trimZeros r0 ≠ 0 := hnz0 h0
    have hz4 : z < 4 := by
      by_contra hge
      push_neg at hge
      have h1 : (10 : Nat) ^ 4 ≤ 10 ^ z := Nat.pow_le_pow_right (by omega) hge
      have h2 : (10 : Nat) ^ z ≤ trimZeros r0 * 10 ^ z := by
        calc (10 : Nat) ^ z = 1 * 10 ^ z := (one_mul _).symm
        _ ≤ trimZeros r0 * 10 ^ z := Nat.mul_le_mul_right _ (by omega)
      have h4 : (10 : Nat) ^ 4 = 10000 := by norm_num
      omega
    have hlen_r0 : (natToChars r0).length = (natToChars (trimZeros r0)).length + z := by
      conv_lhs => rw [hz]
      exact natToChars_pow_length _ z htne
    have hsum : (fillChars r0).length + (natToChars r0).length = 4 := by
      rw [fillChars_length r0, natToChars_length_lt r0 h]
      split_ifs <;> omega
    have hL : (fillChars r0 ++ natToChars (trimZeros r0)).length = 4 - z := by
      rw [List.length_append]
      omega
    have hne : fillChars r0 ++ natToChars (trimZeros r0) ≠ [] := by
      intro hnil
      rw [hnil] at hL
      simp at hL
      omega
    have hval := parseIntChars_fill_digits r0 (trimZeros r0)
    unfold fracParse
    rw [if_neg hne]
    interval_cases z
    · rw [if_neg (by omega), if_neg (by omega), if_neg (by omega),
        show (4 : Nat) = (fillChars r0 ++ natToChars (trimZeros r0)).length from by omega,
        List.take_length, hval]
      congr 1
      conv_rhs => rw [hz]
      push_cast
      ring
    · rw [if_neg (by omega), if_neg (by omega), if_pos (by omega), hval]
      show some ((trimZeros r0 : Int) * 10) = _
      congr 1
      conv_rhs => rw [hz]
      push_cast
      ring
    · rw [if_neg (by omega), if_pos (by omega), hval]
      show some ((trimZeros r0 : Int) * 100) = _
      congr 1
      conv_rhs => rw [hz]
      push_cast
      ring
    · rw [if_pos (by omega), hval]
      show some ((trimZeros r0 : Int) * 1000) = _
      congr 1
      conv_rhs => rw [hz]
      push_cast
      ring

theorem dropWhile_eq_self_of (p : Char → Bool) (s : List Char)
    (h : ∀ c ∈ s, p c = false) : s.dropWhile p = s := by
  cases s with
  | nil => rfl
  | cons c rest =>
    rw [List.dropWhile_cons, h c (List.mem_cons_self c rest)]
    rfl

theorem trimChars_eq_self {s : List Char}
    (h : ∀ c ∈ s, Char.isWhitespace c = false) : trimChars s = s := by
  unfold trimChars
  rw [dropWhile_eq_self_of _ s h,
    dropWhile_eq_self_of _ s.reverse (fun c hc => h c (List.mem_reverse.mp hc)),
    List.reverse_reverse]

theorem splitDot_no_dot {s : List Char} (h : ∀ c ∈ s, c ≠ '.') : splitDot s = [s] := by
  induction s with
  | nil => rfl
  | cons c rest ih =>
    have hrest := ih (fun x hx => h x (List.mem_cons_of_mem _ hx))
    simp only [splitDot, hrest]
    rw [if_neg (h c (List.mem_cons_self c rest))]

theorem splitDot_append (xs ys : List Char) (h : ∀ c ∈ xs, c ≠ '.') :
    splitDot (xs ++ '.' :: ys) = xs :: splitDot ys := by
  induction xs with
  | nil =>
    simp only [List.nil_append, splitDot]
    simp
  | cons c rest ih =>
    have hrest := ih (fun x hx => h x (List.mem_cons_of_mem _ hx))
    rw [List.cons_append]
    simp only [splitDot, hrest]
    rw [if_neg (h c (List.mem_cons_self c rest))]

theorem decimalFromChars_shape (A R : List Char) (l r : Int)
    (hA : A ≠ []) (hAh : ∀ c ∈ A, c ≠ '-')
    (hnws : ∀ c ∈ A ++ '.' :: R, Char.isWhitespace c = false)
    (hAdot : ∀ c ∈ A, c ≠ '.') (hRdot : ∀ c ∈ R, c ≠ '.')
    (hpl : parseIntChars A = some l) (hpr : fracParse R = some r) :
    decimalFromChars (A ++ '.' :: R) = some (l * 10000 + r) := by
  simp only [decimalFromChars]
  rw [trimChars_eq_self hnws]
  have hh : ¬((A ++ '.' :: R).head? = some '-') := by
    cases A with
    | nil => exact absurd rfl hA
    | cons a as =>
      rw [List.cons_append]
      intro hcon
      exact hAh a (List.mem_cons_self a as) (Option.some.inj hcon)
  rw [if_neg hh, if_neg hh, splitDot_append A R hAdot, splitDot_no_dot hRdot]
  show (match parseIntChars A with
    | none => none
    | some lv =>
      match fracParse R with
      | none => none
      | some rv => some ((1 : Int) * (lv * 10000 + rv))) = some (l * 10000 + r)
  rw [hpl, hpr]
  show some ((1 : Int) * (l * 10000 + r)) = some (l * 10000 + r)
  rw [one_mul]

theorem decimalFromChars_shape_neg (A R : List Char) (l r : Int)
    (hA : A ≠ [])
    (hnws : ∀ c ∈ '-' :: (A ++ '.' :: R), Char.isWhitespace c = false)
    (hAdot : ∀ c ∈ A, c ≠ '.') (hRdot : ∀ c ∈ R, c ≠ '.')
    (hpl : parseIntChars A = some l) (hpr : fracParse R = some r) :
    decimalFromChars ('-' :: (A ++ '.' :: R)) = some (-1 * (l * 10000 + r)) := by
  simp only [decimalFromChars]
  rw [trimChars_eq_self hnws]
  have hh : ('-' :: (A ++ '.' :: R)).head? = some '-' := rfl
  rw [if_pos hh, if_pos hh, List.tail_cons,
    splitDot_append A R hAdot, splitDot_no_dot hRdot]
  show (match parseIntChars A with
    | none => none
    | some lv =>
      match fracParse R with
      | none => none
      | some rv => some ((-1 : Int) * (lv * 10000 + rv))) = some (-1 * (l * 10000 + r))
  rw [hpl, hpr]

/-- Parsing the rendered text of any Decimal value recovers it exactly. -/
theorem decimalToChars_roundtrip (d : Int) :
    decimalFromChars (decimalToChars d) = some d := by
  have hr0lt : d.natAbs % 10000 < 10000 := Nat.mod_lt _ (by omega)
  have hdigA : ∀ c ∈ natToChars (d.natAbs / 10000), c ≠ '-' := by
    intro c hc
    obtain ⟨k, hk, rfl⟩ := natToChars_digits _ c hc
    exact (digitChar_props k hk).2.1
  have hdotA : ∀ c ∈ natToChars (d.natAbs / 10000), c ≠ '.' := by
    intro c hc
    obtain ⟨k, hk, rfl⟩ := natToChars_digits _ c hc
    exact (digitChar_props k hk).1
  have hdotR : ∀ c ∈ fillChars (d.natAbs % 10000)
      ++ natToChars (trimZeros (d.natAbs % 10000)), c ≠ '.' := by
    intro c hc
    rcases List.mem_append.mp hc with h | h
    · rw [fillChars_mem h]; decide
    · obtain ⟨k, hk, rfl⟩ := natToChars_digits _ c h
      exact (digitChar_props k hk).1
  have hnwsBody : ∀ c ∈ natToChars (d.natAbs / 10000) ++ '.' ::
      (fillChars (d.natAbs % 10000) ++ natToChars (trimZeros (d.natAbs % 10000))),
      Char.isWhitespace c = false := by
    intro c hc
    rcases List.mem_append.mp hc with h | h
    · obtain ⟨k, hk, rfl⟩ := natToChars_digits _ c h
      exact (digitChar_props k hk).2.2.2
    · rcases List.mem_cons.mp h with rfl | h
      · decide
      · rcases List.mem_append.mp h with h | h
        · rw [fillChars_mem h]; decide
        · obtain ⟨k, hk, rfl⟩ := natToChars_digits _ c h
          exact (digitChar_props k hk).2.2.2
  have hpl := parseIntChars_natToChars (d.natAbs / 10000)
  have hpr := frac_roundtrip (d.natAbs % 10000) hr0lt
  by_cases hdneg : d < 0
  · have hform : decimalToChars d = '-' :: (natToChars (d.natAbs / 10000) ++ '.' ::
        (fillChars (d.natAbs % 10000) ++ natToChars (trimZeros (d.natAbs % 10000)))) := by
      unfold decimalToChars
      rw [if_pos hdneg]
      simp [List.append_assoc]
    have hnwsNeg : ∀ c ∈ '-' :: (natToChars (d.natAbs / 10000) ++ '.' ::
        (fillChars (d.natAbs % 10000) ++ natToChars (trimZeros (d.natAbs % 10000)))),
        Char.isWhitespace c = false := by
      intro c hc
      rcases List.mem_cons.mp hc with rfl | h
      · decide
      · exact hnwsBody c h
    rw [hform, decimalFromChars_shape_neg _ _ _ _ (natToChars_ne_nil _)
      hnwsNeg hdotA hdotR hpl hpr]
    congr 1
    have habs : (d.natAbs : Int) = -d := Int.ofNat_natAbs_of_nonpos (le_of_lt hdneg)
    omega
  · push_neg at hdneg
    have hform : decimalToChars d = natToChars (d.natAbs / 10000) ++ '.' ::
        (fillChars (d.natAbs % 10000) ++ natToChars (trimZeros (d.natAbs % 10000))) := by
      unfold decimalToChars
      rw [if_neg (not_lt.mpr hdneg)]
      simp [List.append_assoc]
    rw [hform, decimalFromChars_shape _ _ _ _ (natToChars_ne_nil _) hdigA
      hnwsBody hdotA hdotR hpl hpr]
    congr 1
    have habs : (d.natAbs : Int) = d := Int.natAbs_of_nonneg hdneg
    omega

/-! ## Claim C7: the Decimal text round trip -/

/-- C7: parsing the text rendering of any Decimal value yields the value back,
and for every text input the parser accepts, rendering after parsing is
canonical: rendering, re-parsing and re-rendering reproduces the first
rendering. -/
theorem decimal_text_roundtrip (d : Int) (s : List Char) (e : Int)
    (hparse : decimalFromChars s = some e) :
    decimalFromChars (decimalToChars d) = some d ∧
    (decimalFromChars (decimalToChars e)).map decimalToChars
      = (decimalFromChars s).map decimalToChars := by
  refine ⟨decimalToChars_roundtrip d, ?_⟩
  rw [hparse, decimalToChars_roundtrip e]

/-- C7 witness: the text "1.5" parses to 1.5000 (scaled 15000), and the
round-trip equations hold there with d = -0.0003 (scaled -3). -/
theorem decimal_text_roundtrip_witness :
    decimalFromChars ['1', '.', '5'] = some 15000 ∧
    (decimalFromChars (decimalToChars (-3)) = some (-3) ∧
      (decimalFromChars (decimalToChars 15000)).map decimalToChars
        = (decimalFromChars ['1', '.', '5']).map decimalToChars) :=
  ⟨by decide, decimal_text_roundtrip (-3) ['1', '.', '5'] 15000 (by decide)⟩

/-! ## Claim C9: held equals the sum of disputed entries -/

/-- C9: in every reachable state, every stored client's held balance equals
the sum of the recorded amounts of that client's currently-disputed history
entries, and in particular held is never negative. -/
theorem held_equals_disputed_sum (st : Engine) (h : Reachable st) :
    ∀ c cl, lookupA c st.clients = some cl →
      cl.held = heldSum c st.history ∧ 0 ≤ cl.held := by
  intro c cl hl
  have hInv := inv_reachable h
  have h1 := hInv.heldEq c cl hl
  refine ⟨h1, ?_⟩
  rw [h1]
  exact heldSum_nonneg c hInv.dispNN

/-- C9 witness: after deposit 100.0000 and its dispute, client 1's held is
100.0000 and equals the disputed sum. -/
theorem held_equals_disputed_sum_witness :
    ({ cid := 1, available := 0, held := 1000000, locked := false } : Client).held
        = heldSum 1 (runT Engine.new
            [Transaction.deposit 1 1 1000000, Transaction.dispute 1 1]).history ∧
      (0 : Int) ≤ ({ cid := 1, available := 0, held := 1000000, locked := false } : Client).held :=
  held_equals_disputed_sum
    (runT Engine.new [Transaction.deposit 1 1 1000000, Transaction.dispute 1 1])
    ⟨[Transaction.deposit 1 1 1000000, Transaction.dispute 1 1], rfl⟩ 1
    { cid := 1, available := 0, held := 1000000, locked := false } (by decide)

/-! ## Claim C4: the chargeback assertion never fails -/

/-- C4: in every reachable state, whenever a Chargeback's validation would
pass — client unlocked, entry present, client id matching, entry disputed —
the client's held balance is at least the entry's amount, so the
`assert!(client.held >= amount)` in process_chargeback cannot fail on any
input transaction sequence. -/
theorem chargeback_assert_never_fails (st : Engine) (h : Reachable st)
    (tx cid : Nat) (e : HistoryEntry) (he : lookupA tx st.history = some e)
    (hcid : e.cid = cid) (hdis : e.disputed = true)
    (hulk : (getClient st cid).locked = false) :
    e.amount ≤ (getClient st cid).held := by
  have hInv := inv_reachable h
  rw [getClient_held_of_inv hInv cid]
  exact contribOf_le_heldSum cid tx hInv.nodupH he hInv.dispNN hcid hdis

/-- C4 witness: with deposit 100.0000 disputed, the chargeback guard condition
100.0000 ≤ held holds. -/
theorem chargeback_assert_never_fails_witness :
    lookupA 1 (runT Engine.new
        [Transaction.deposit 1 1 1000000, Transaction.dispute 1 1]).history
      = some { cid := 1, amount := 1000000, disputed := true } ∧
    (getClient (runT Engine.new
        [Transaction.deposit 1 1 1000000, Transaction.dispute 1 1]) 1).locked = false ∧
    ({ cid := 1, amount := 1000000, disputed := true } : HistoryEntry).amount
      ≤ (getClient (runT Engine.new
        [Transaction.deposit 1 1 1000000, Transaction.dispute 1 1]) 1).held :=
  ⟨by decide, by decide,
   chargeback_assert_never_fails
     (runT Engine.new [Transaction.deposit 1 1 1000000, Transaction.dispute 1 1])
     ⟨[Transaction.deposit 1 1 1000000, Transaction.dispute 1 1], rfl⟩ 1 1
     { cid := 1, amount := 1000000, disputed := true } (by decide) rfl rfl (by decide)⟩

end Txn
